import Mathlib

/-!
# Fractional-seconds parsing (`util/types/fsp.go`)

A shallow embedding of `checkFsp`, `parseFrac` and `alignFrac`, together with
the parts of Go's `strconv` and `math` packages that `parseFrac` calls.

* Go strings are modelled by `String`; `len` is the length in bytes.
* Go's `int` is modelled by `Int`; every integer that `parseFrac` produces is
  below `10^6` in absolute value, so no machine-integer wrap-around occurs.
* A `float64` is modelled exactly: a finite value is an integer number of
  units of `2^-1074` (the smallest positive binary64 value), and every
  operation rounds its exact result to the nearest representable value,
  ties to even, as IEEE 754 prescribes.
-/

namespace Fsp

/-! ## Errors -/

/-- The errors that can come back from `parseFrac`: the validator's
`Invalid fsp %d`, and the two `strconv` errors `ErrSyntax` and `ErrRange`.
`errors.Trace` only annotates an error with a location and is the identity here. -/
inductive Err where
  | invalidFsp (fsp : Int)
  | malformed
  | outOfRange
  deriving DecidableEq, Repr

/-! ## Constants and `checkFsp` -/

/-- `UnspecifiedFsp` is the unspecified fractional seconds part. -/
def UnspecifiedFsp : Int := -1

/-- `MaxFsp` is the maximum digit of fractional seconds part. -/
def MaxFsp : Int := 6

/-- `MinFsp` is the minimum digit of fractional seconds part. -/
def MinFsp : Int := 0

/-- `DefaultFsp` is the default digit of fractional seconds part. -/
def DefaultFsp : Int := 0

/-- `checkFsp` from the source: the returned pair is (precision, error). -/
def checkFsp (fsp : Int) : Int × Option Err :=
  if fsp = UnspecifiedFsp then (DefaultFsp, none)
  else if fsp < MinFsp ∨ fsp > MaxFsp then (DefaultFsp, some (Err.invalidFsp fsp))
  else (fsp, none)

/-! ## The binary64 model -/

/-- Number of units of `2^-1074` in `1.0`. -/
@[irreducible] def one64 : Nat := 2 ^ 1074

/-- First unit count that is too large for a finite binary64 (`2^1024` in units). -/
@[irreducible] def huge64 : Nat := 2 ^ 2098

/-- The value `2^1024`, the first power of two beyond the finite binary64 range. -/
@[irreducible] def limit64 : Nat := 2 ^ 1024

/-- Nearest integer to `n / d`, ties to the even integer. -/
def roundHalfEven (n d : Nat) : Nat :=
  let q := n / d
  let r := n % d
  if 2 * r < d then q
  else if d < 2 * r then q + 1
  else if q % 2 = 0 then q else q + 1

/-- Worker of `log2`: `fuel` bounds the number of halvings. -/
def log2Fuel : Nat → Nat → Nat
  | 0, _ => 0
  | fuel + 1, n => if n < 2 then 0 else log2Fuel fuel (n / 2) + 1

/-- Position of the highest set bit of `n` (`0` for `n = 0`). -/
def log2 (n : Nat) : Nat := log2Fuel n n

/-- Nearest unit count with at most 53 significant bits to the exact quantity
`n / d` units, ties to even. Below `2^53` units (subnormals and the first
normal binade) every integer is representable; above, the spacing is
`2^(log2 x - 52)`. The result may reach `huge64`, which the callers turn
into an infinity. -/
def roundUnits (n d : Nat) : Nat :=
  let fl := n / d
  if fl < 2 ^ 53 then roundHalfEven n d
  else
    let j := log2 fl - 52
    roundHalfEven n (d * 2 ^ j) * 2 ^ j

/-- A binary64 value: a finite value `u * 2^-1074`, an infinity, or NaN.
The sign of zero is not tracked. -/
inductive F64 where
  | fin (u : Int)
  | inf (neg : Bool)
  | nan
  deriving DecidableEq, Repr

namespace F64

/-- The binary64 nearest to the exact value `n / d` (`n` may be negative),
overflowing to an infinity. A magnitude of `2^1024` or more is an infinity
without further work; the remaining overflows are those that round up to
`2^1024`. -/
def ofRatio (n : Int) (d : Nat) : F64 :=
  if limit64 ≤ n.natAbs / d then inf (decide (n < 0))
  else
    let m := roundUnits (n.natAbs * one64) d
    if huge64 ≤ m then inf (decide (n < 0))
    else if n < 0 then fin (-(m : Int)) else fin (m : Int)

/-- Conversion `float64(v)` of an integer. -/
def ofInt (v : Int) : F64 := ofRatio v 1

/-- IEEE multiplication `x * y`. -/
def mul : F64 → F64 → F64
  | fin a, fin b => ofRatio (a * b) (one64 * one64)
  | fin a, inf neg => if a = 0 then nan else inf (xor (decide (a < 0)) neg)
  | inf neg, fin b => if b = 0 then nan else inf (xor neg (decide (b < 0)))
  | inf n1, inf n2 => inf (xor n1 n2)
  | _, _ => nan

/-- Go's `math.Pow10(n)`: the binary64 nearest to `10^n` (a table lookup in
Go; `0` below `10^-323` and `+Inf` above `10^308`, which is what rounding the
exact power gives). -/
def pow10 (n : Int) : F64 :=
  if 0 ≤ n then ofRatio ((10 : Int) ^ n.toNat) 1 else ofRatio 1 (10 ^ (-n).toNat)

/-- Go's `math.Pow(10, float64(n))` for an integer `n`. Go computes the power
by repeated multiplication of the binary fraction of 10; for the validated
precisions `0..6` every intermediate product is exact, so the result is
`10^n` itself. -/
def powTen (n : Int) : F64 := pow10 n

/-- Go's `math.Modf`: integer part and fractional part, both with the sign of
the argument. `Modf(±Inf) = (±Inf, NaN)`, `Modf(NaN) = (NaN, NaN)`. -/
def modf : F64 → F64 × F64
  | fin u => (fin (Int.tdiv u one64 * one64), fin (Int.tmod u one64))
  | inf neg => (inf neg, nan)
  | nan => (nan, nan)

/-- Go's `math.Floor`. -/
def floor : F64 → F64
  | fin u => fin (u / (one64 : Int) * one64)
  | x => x

/-- Go's `math.Ceil`. -/
def ceil : F64 → F64
  | fin u => fin (-((-u) / (one64 : Int)) * one64)
  | x => x

/-- The comparison `x >= y` on binary64 values; false when either is NaN. -/
def ge : F64 → F64 → Bool
  | fin a, fin b => decide (b ≤ a)
  | fin _, inf neg => neg
  | inf neg, fin _ => !neg
  | inf n1, inf n2 => !n1 || n2
  | _, _ => false

/-- The conversion `int(x)` of a binary64 to a 64-bit integer: truncation
toward zero. For values that do not fit (and for infinities and NaN) Go leaves
the result to the implementation; amd64 gives the smallest `int64`. -/
def toInt : F64 → Int
  | fin u =>
      let t := Int.tdiv u one64
      if -(2 : Int) ^ 63 ≤ t ∧ t < (2 : Int) ^ 63 then t else -(2 : Int) ^ 63
  | _ => -(2 : Int) ^ 63

end F64

/-! ## `strconv.ParseInt` and `strconv.ParseFloat` -/

/-- Value of an ASCII decimal digit. -/
def digitVal (c : Char) : Option Nat :=
  if 48 ≤ c.toNat ∧ c.toNat ≤ 57 then some (c.toNat - 48) else none

/-- Reads a run that must consist of decimal digits only, most significant
first, accumulating onto `acc`. -/
def readDigits : List Char → Nat → Option Nat
  | [], acc => some acc
  | c :: cs, acc =>
    match digitVal c with
    | some d => readDigits cs (acc * 10 + d)
    | none => none

/-- The part of `strconv.ParseInt` after the optional sign: one or more
decimal digits, then the `int64` range check. -/
def parseIntBody (neg : Bool) (ds : List Char) : Except Err Int :=
  match ds with
  | [] => Except.error Err.malformed
  | _ :: _ =>
    match readDigits ds 0 with
    | none => Except.error Err.malformed
    | some un =>
      if neg then
        (if un ≤ 2 ^ 63 then Except.ok (-(un : Int)) else Except.error Err.outOfRange)
      else
        (if un < 2 ^ 63 then Except.ok (un : Int) else Except.error Err.outOfRange)

/-- Go's `strconv.ParseInt(s, 10, 64)`: an optional sign followed by one or
more decimal digits (no underscores in base 10); a value outside the `int64`
range is `ErrRange`. -/
def ParseInt (s : String) : Except Err Int :=
  match s.data with
  | [] => Except.error Err.malformed
  | c :: cs =>
    if c = '+' then parseIntBody false cs
    else if c = '-' then parseIntBody true cs
    else parseIntBody false (c :: cs)

/-- Mantissa reader of the decimal float syntax: digits with at most one
`.`, underscores skipped. Returns whether a digit was seen, the integer formed
by all digits read, the number of digits after the point, and the unread rest. -/
def readMant : List Char → Bool → Bool → Nat → Nat → Bool × Nat × Nat × List Char
  | [], _, sawdigits, m, f => (sawdigits, m, f, [])
  | c :: cs, sawdot, sawdigits, m, f =>
    if c = '_' then readMant cs sawdot sawdigits m f
    else if c = '.' then
      (if sawdot then (sawdigits, m, f, c :: cs) else readMant cs true sawdigits m f)
    else
      match digitVal c with
      | some d => readMant cs sawdot true (m * 10 + d) (if sawdot then f + 1 else f)
      | none => (sawdigits, m, f, c :: cs)

/-- Exponent digits reader: digits and underscores; the exponent stops growing
once it has reached 10000, as in Go. Returns the exponent and the unread rest. -/
def readExp : List Char → Nat → Nat × List Char
  | [], e => (e, [])
  | c :: cs, e =>
    if c = '_' then readExp cs e
    else
      match digitVal c with
      | some d => readExp cs (if e < 10000 then e * 10 + d else e)
      | none => (e, c :: cs)

/-- Go's `underscoreOK`, the number-proper loop: `saw` is the class of the
previous character (`0` digit or base prefix, `1` underscore, `2` other or start). -/
def underscoreLoop : List Char → Bool → Nat → Bool
  | [], _, saw => saw ≠ 1
  | c :: cs, hex, saw =>
    if (digitVal c).isSome ∨ (hex ∧ ((97 ≤ c.toNat ∧ c.toNat ≤ 102) ∨ (65 ≤ c.toNat ∧ c.toNat ≤ 70)))
    then underscoreLoop cs hex 0
    else if c = '_' then (if saw ≠ 0 then false else underscoreLoop cs hex 1)
    else if saw = 1 then false
    else underscoreLoop cs hex 2

/-- Go's `underscoreOK`: an underscore may only stand between digits, or
between a base prefix and a digit. -/
def underscoreOK (cs : List Char) : Bool :=
  let body : List Char :=
    match cs with
    | c :: rest => if c = '-' ∨ c = '+' then rest else cs
    | [] => cs
  match body with
  | c0 :: c1 :: rest =>
    if c0 = '0' ∧ (c1 = 'b' ∨ c1 = 'B' ∨ c1 = 'o' ∨ c1 = 'O' ∨ c1 = 'x' ∨ c1 = 'X')
    then underscoreLoop rest (decide (c1 = 'x' ∨ c1 = 'X')) 0
    else underscoreLoop body false 2
  | _ => underscoreLoop body false 2

/-- Exponent digits after the optional exponent sign: at least one digit
first, then digits and underscores up to the end of the string. -/
def readExpDigits (eneg : Bool) (ds : List Char) : Option Int :=
  match ds with
  | [] => none
  | d :: _ =>
    if (digitVal d).isSome then
      match readExp ds 0 with
      | (e, []) => some (if eneg then -(e : Int) else (e : Int))
      | (_, _ :: _) => none
    else none

/-- Exponent part after the `e`: an optional sign and the exponent digits. -/
def readExpPart (after : List Char) : Option Int :=
  match after with
  | [] => none
  | x :: more =>
    if x = '+' then readExpDigits false more
    else if x = '-' then readExpDigits true more
    else readExpDigits false (x :: more)

/-- What follows the mantissa in the decimal float syntax: the mantissa must
have had a digit, and what is left unread is either nothing or an exponent part
that reaches the end of the string. -/
def finishFloat (neg : Bool) (r : Bool × Nat × Nat × List Char) : Option (Bool × Nat × Int) :=
  match r with
  | (false, _, _, _) => none
  | (true, m, f, rest) =>
    match rest with
    | [] => some (neg, m, -(f : Int))
    | c :: after =>
      if c = 'e' ∨ c = 'E' then
        match readExpPart after with
        | some e => some (neg, m, e - (f : Int))
        | none => none
      else none

/-- Decimal float syntax after the optional sign: the mantissa and what follows it. -/
def readFloatBody (neg : Bool) (body : List Char) : Option (Bool × Nat × Int) :=
  finishFloat neg (readMant body false false 0 0)

/-- Decimal float syntax: `[sign] mantissa [ (e|E) [sign] digits ]`, the whole
string consumed. Returns the sign, the mantissa integer and the decimal
exponent: the number read is `± m * 10^e`. -/
def readFloat (cs : List Char) : Option (Bool × Nat × Int) :=
  match cs with
  | [] => none
  | c :: rest =>
    if c = '+' then readFloatBody false rest
    else if c = '-' then readFloatBody true rest
    else readFloatBody false (c :: rest)

/-- Go's `strconv.ParseFloat(s, 64)` on the decimal syntax: the binary64
nearest to the number written, ties to even; `ErrSyntax` when the string is
not a number, `ErrRange` when the nearest value is an infinity. Underscores
between digits are accepted as by current Go (older releases reject them).
The names `inf`, `infinity`, `nan` and the `0x` syntax are not modelled:
`parseFrac` only hands over strings that begin with `.` or `0.`, which are
none of these. -/
def ParseFloat (s : String) : Except Err F64 :=
  match readFloat s.data with
  | none => Except.error Err.malformed
  | some (neg, m, e) =>
    if s.data.contains '_' ∧ ¬ underscoreOK s.data then Except.error Err.malformed
    else
      let n : Int := if neg then -(m : Int) else (m : Int)
      let v := if 0 ≤ e then F64.ofRatio (n * 10 ^ e.toNat) 1 else F64.ofRatio n (10 ^ (-e).toNat)
      match v with
      | F64.fin u => Except.ok (F64.fin u)
      | _ => Except.error Err.outOfRange

/-! ## `parseFrac` and `alignFrac` -/

/-- Go's `len(s)`: the number of bytes of the string. -/
def len (s : String) : Int := (s.utf8ByteSize : Int)

/-- Go's `strings.HasPrefix`. -/
def HasPrefix (s pre : String) : Bool := pre.data.isPrefixOf s.data

/-- Lines 66-70 of `parseFrac`: the text handed to `strconv.ParseFloat`,
`"0." + s` unless `s` already starts with `.` or `0.`. -/
def fracText (s : String) : String :=
  if !HasPrefix s "." && !HasPrefix s "0." then "0." ++ s else s

/-- Lines 77-97 of `parseFrac`: the parsed fraction is rounded to `fsp` digits
and scaled to six digits. -/
def roundFrac (frac : F64) (fsp : Int) : Int × Option Err × Bool :=
  -- round frac to the nearest value with FSP
  let pow := F64.powTen fsp
  let digit := F64.mul pow frac
  let div := (F64.modf digit).2
  let round := if F64.ge div (F64.ofRatio 1 2) then F64.ceil digit else F64.floor digit
  if F64.ge round (F64.pow10 fsp) then
    -- overflow
    (0, none, true)
  else
    -- Get the final frac, with 6 digit number
    (F64.toInt (F64.mul round (F64.pow10 (MaxFsp - fsp))), none, false)

/-- `parseFrac` from the source: the returned triple is (value, error, overflow). -/
def parseFrac (s : String) (fsp : Int) : Int × Option Err × Bool :=
  if len s = 0 then (0, none, false)
  else
    match checkFsp fsp with
    | (_, some err) => (0, some err, false)
    | (fsp, none) =>
      -- Fill 0 when fsp > string length.
      if fsp > len s then
        match ParseInt s with
        | Except.error err => (0, some err, false)
        | Except.ok v => (F64.toInt (F64.mul (F64.ofInt v) (F64.pow10 (fsp - len s))), none, false)
      else
        -- Found when fsp <= string length.
        match ParseFloat (fracText s) with
        | Except.error err => (0, some err, false)
        | Except.ok frac => roundFrac frac fsp

/-- Go's `strings.Repeat(s, count)` for `count ≥ 0`; it panics on a negative
count, which is `none` here. -/
def Repeat (s : String) (count : Int) : Option String :=
  if count < 0 then none else some (String.join (List.replicate count.toNat s))

/-- `alignFrac` from the source; `none` stands for a panic in `strings.Repeat`. -/
def alignFrac (s : String) (fsp : Int) : Option String :=
  let sl := len s
  if sl < fsp then
    match Repeat "0" (fsp - sl) with
    | some z => some (s ++ z)
    | none => none
  else some s

/-! ## Vocabulary of the specification -/

/-- An ASCII decimal digit, `'0'` to `'9'`. -/
@[reducible] def IsDigit (c : Char) : Prop := 48 ≤ c.toNat ∧ c.toNat ≤ 57

/-- The characters other than `.` that occur in Go's decimal float and integer
syntax: digits, signs, the exponent letter and the underscore. -/
@[reducible] def IsNumChar (c : Char) : Prop :=
  IsDigit c ∨ c = '+' ∨ c = '-' ∨ c = 'e' ∨ c = 'E' ∨ c = '_'

/-- The text without a leading `.` or `0.`, the two prefixes that `parseFrac`
recognises. -/
def stripLead (cs : List Char) : List Char :=
  match cs with
  | [] => []
  | c :: r =>
    if c = '.' then r
    else if c = '0' then
      (match r with
       | [] => cs
       | d :: r2 => if d = '.' then r2 else cs)
    else cs

/-- A non-empty text consisting only of ASCII digits. -/
@[reducible] def DigitText (s : String) : Prop := s ≠ "" ∧ ∀ c ∈ s.data, IsDigit c

/-- Base-10 value of a run of digits appended to the number `acc`. -/
def foldDigits (cs : List Char) (acc : Nat) : Nat :=
  cs.foldl (fun acc c => acc * 10 + (c.toNat - 48)) acc

/-- The integer value of a digit text, read in base 10. -/
def textValue (s : String) : Nat := foldDigits s.data 0

/-- Round-half-up as the specification words it: with `x = (N / 10^L) * 10^p`
computed exactly, the value `floor (x + 1/2)`. -/
def halfUp (N L p : Nat) : Nat := (2 * N * 10 ^ p + 10 ^ L) / (2 * 10 ^ L)

end Fsp

/-! ## Basic facts about strings and `len` -/

namespace Fsp

theorem utf8_go_ge_length (cs : List Char) : cs.length ≤ String.utf8ByteSize.go cs := by
  induction cs with
  | nil => simp [String.utf8ByteSize.go]
  | cons c cs ih =>
    have := Char.utf8Size_pos c
    simp only [String.utf8ByteSize.go, List.length_cons]
    omega

theorem len_ge_length (s : String) : (s.data.length : Int) ≤ len s := by
  have := utf8_go_ge_length s.data
  unfold len String.utf8ByteSize
  cases s
  simp only at this ⊢
  exact_mod_cast this

theorem len_eq_zero_iff (s : String) : len s = 0 ↔ s = "" := by
  constructor
  · intro h
    have h1 := len_ge_length s
    have h2 : s.data.length = 0 := by omega
    cases s with
    | mk d =>
      simp only [List.length_eq_zero] at h2
      subst h2
      rfl
  · intro h
    subst h
    rfl

theorem len_nonneg (s : String) : 0 ≤ len s := by
  unfold len
  exact Int.ofNat_nonneg _

end Fsp

/-! ## Theorems on `checkFsp` -/

namespace Fsp

/-- C9: `checkFsp` returns an error if and only if its input is not the
sentinel `-1` and lies outside `[0,6]`; in that case the returned precision is
the default `0`. -/
theorem checkFsp_error_iff (fsp : Int) :
    ((checkFsp fsp).2 ≠ none ↔ (fsp ≠ -1 ∧ (fsp < 0 ∨ fsp > 6))) ∧
    ((checkFsp fsp).2 ≠ none → (checkFsp fsp).1 = 0) := by
  unfold checkFsp UnspecifiedFsp MinFsp MaxFsp DefaultFsp
  by_cases h1 : fsp = -1
  · simp [h1]
  · by_cases h2 : fsp < 0 ∨ fsp > 6
    · simp [h1, h2]
    · simp [h1, h2]

/-- C10: for every precision in `[0,6]`, `checkFsp` returns it unchanged with
no error; for the unspecified sentinel `-1` it returns the default `0` with no
error. -/
theorem checkFsp_valid (fsp : Int) (h0 : 0 ≤ fsp) (h6 : fsp ≤ 6) :
    checkFsp fsp = (fsp, none) ∧ checkFsp (-1) = (0, none) := by
  constructor
  · unfold checkFsp UnspecifiedFsp MinFsp MaxFsp DefaultFsp
    have h1 : fsp ≠ -1 := by omega
    have h2 : ¬ (fsp < 0 ∨ fsp > 6) := by omega
    simp [h1, h2]
  · rfl

/-- Witness of `checkFsp_valid` at precision 3. -/
theorem checkFsp_valid_witness :
    (0 : Int) ≤ 3 ∧ (3 : Int) ≤ 6 ∧ checkFsp 3 = (3, none) ∧ checkFsp (-1) = (0, none) :=
  ⟨by decide, by decide, checkFsp_valid 3 (by decide) (by decide)⟩

end Fsp

/-! ## Theorems on `parseFrac`: short circuits and result shape -/

namespace Fsp

/-- C6: on the empty text `parseFrac` returns `(0, nil, false)` for every
integer precision; the precision is not validated. -/
theorem parseFrac_empty (fsp : Int) : parseFrac "" fsp = (0, none, false) := by
  have h : len "" = 0 := by decide
  simp only [parseFrac, h, if_true]

/-- C7: for every non-empty text and every precision that is neither `-1` nor
in `[0,6]`, `parseFrac` returns the validator's invalid-precision error with
value `0` and no overflow, whatever the text. -/
theorem parseFrac_invalid_fsp (s : String) (fsp : Int) (hs : s ≠ "")
    (h1 : fsp ≠ -1) (h2 : fsp < 0 ∨ fsp > 6) :
    parseFrac s fsp = (0, (checkFsp fsp).2, false) ∧
    (checkFsp fsp).2 = some (Err.invalidFsp fsp) := by
  have hl : len s ≠ 0 := fun h => hs ((len_eq_zero_iff s).1 h)
  have hc : checkFsp fsp = (DefaultFsp, some (Err.invalidFsp fsp)) := by
    unfold checkFsp UnspecifiedFsp MinFsp MaxFsp
    simp [h1, h2]
  unfold parseFrac
  simp [hl, hc]

/-- Witness of `parseFrac_invalid_fsp` at text `12a3`, precision 7. -/
theorem parseFrac_invalid_fsp_witness :
    parseFrac "12a3" 7 = (0, (checkFsp 7).2, false) ∧
    (checkFsp 7).2 = some (Err.invalidFsp 7) :=
  parseFrac_invalid_fsp "12a3" 7 (by decide) (by decide) (by decide)

theorem roundFrac_cases (frac : F64) (fsp : Int) :
    roundFrac frac fsp = (0, none, true) ∨ ∃ v, roundFrac frac fsp = (v, none, false) := by
  unfold roundFrac
  dsimp only
  split_ifs
  all_goals first
    | exact Or.inl rfl
    | exact Or.inr ⟨_, rfl⟩

/-- The three shapes of a result of `parseFrac`: success, error, overflow. -/
theorem parseFrac_cases (s : String) (fsp : Int) :
    (∃ v, parseFrac s fsp = (v, none, false)) ∨
    (∃ e, parseFrac s fsp = (0, some e, false)) ∨
    parseFrac s fsp = (0, none, true) := by
  unfold parseFrac
  split
  · exact Or.inl ⟨_, rfl⟩
  · split
    · exact Or.inr (Or.inl ⟨_, rfl⟩)
    · split
      · split
        · exact Or.inr (Or.inl ⟨_, rfl⟩)
        · exact Or.inl ⟨_, rfl⟩
      · split
        · exact Or.inr (Or.inl ⟨_, rfl⟩)
        · rename_i frac _
          rcases roundFrac_cases frac _ with h | ⟨v, h⟩
          · exact Or.inr (Or.inr h)
          · exact Or.inl ⟨v, h⟩

/-- C5: error and overflow never hold together; on error the value is `0` and
overflow is false; on overflow the value is `0` and there is no error. -/
theorem parseFrac_shape (s : String) (fsp : Int) :
    ¬ ((parseFrac s fsp).2.1 ≠ none ∧ (parseFrac s fsp).2.2 = true) ∧
    ((parseFrac s fsp).2.1 ≠ none →
      (parseFrac s fsp).1 = 0 ∧ (parseFrac s fsp).2.2 = false) ∧
    ((parseFrac s fsp).2.2 = true →
      (parseFrac s fsp).1 = 0 ∧ (parseFrac s fsp).2.1 = none) := by
  rcases parseFrac_cases s fsp with ⟨v, h⟩ | ⟨e, h⟩ | h <;> simp [h]

end Fsp

/-! ## Exactness of the binary64 operations on small integers -/

namespace Fsp

theorem one64_eq : one64 = 2 ^ 1074 := by
  unfold one64
  rfl

theorem huge64_eq : huge64 = 2 ^ 2098 := by
  unfold huge64
  rfl

theorem limit64_eq : limit64 = 2 ^ 1024 := by
  unfold limit64
  rfl

theorem one64_pos : 0 < one64 := by
  rw [one64_eq]
  exact pow_pos (by decide) _

theorem log2Fuel_le (fuel : Nat) : ∀ (n k : Nat), n < 2 ^ (k + 1) → log2Fuel fuel n ≤ k := by
  induction fuel with
  | zero => intro n k _; simp [log2Fuel]
  | succ fuel ih =>
    intro n k h
    unfold log2Fuel
    split
    · exact Nat.zero_le _
    · rename_i h2
      cases k with
      | zero => simp at h; omega
      | succ k =>
        have h3 : n / 2 < 2 ^ (k + 1) := by
          rw [Nat.div_lt_iff_lt_mul (by decide)]
          rw [pow_succ] at h
          exact h
        have := ih (n / 2) k h3
        omega

theorem log2_le (n k : Nat) (h : n < 2 ^ (k + 1)) : log2 n ≤ k :=
  log2Fuel_le n n k h

theorem roundHalfEven_mul (q d : Nat) (hd : 0 < d) : roundHalfEven (q * d) d = q := by
  unfold roundHalfEven
  have h1 : q * d / d = q := Nat.mul_div_cancel q hd
  have h2 : q * d % d = 0 := Nat.mul_mod_left q d
  simp only [h1, h2]
  simp [hd]

/-- An integer multiple of a power of two with fewer than 54 significant bits
is representable: rounding leaves it unchanged. -/
theorem roundUnits_exact (m k d : Nat) (hd : 0 < d) (hm : m < 2 ^ 53) :
    roundUnits (m * 2 ^ k * d) d = m * 2 ^ k := by
  unfold roundUnits
  have h1 : m * 2 ^ k * d / d = m * 2 ^ k := Nat.mul_div_cancel _ hd
  simp only [h1]
  split
  · exact roundHalfEven_mul _ _ hd
  · have hlt : m * 2 ^ k < 2 ^ (52 + k + 1) := by
      have : 2 ^ (52 + k + 1) = 2 ^ 53 * 2 ^ k := by
        rw [show 52 + k + 1 = 53 + k by omega, pow_add]
      rw [this]
      exact Nat.mul_lt_mul_of_pos_right hm (pow_pos (by decide) _)
    have hj : log2 (m * 2 ^ k) - 52 ≤ k := by
      have := log2_le _ _ hlt
      omega
    generalize log2 (m * 2 ^ k) - 52 = j at hj
    obtain ⟨i, rfl⟩ : ∃ i, k = j + i := ⟨k - j, by omega⟩
    have e : m * 2 ^ (j + i) * d = (m * 2 ^ i) * (d * 2 ^ j) := by
      rw [pow_add]; ring
    rw [e, roundHalfEven_mul _ _ (Nat.mul_pos hd (pow_pos (by decide) _))]
    rw [pow_add]; ring

theorem two_pow_mul_le (a b c : Nat) (h : a + b ≤ c) : 2 ^ a * 2 ^ b ≤ 2 ^ c := by
  rw [← pow_add]
  exact Nat.pow_le_pow_right (by decide) h

theorem pow53_mul_one64_lt_huge64 : 2 ^ 53 * one64 ≤ huge64 := by
  rw [one64_eq, huge64_eq]
  exact two_pow_mul_le 53 1074 2098 (by decide)

theorem two_pow_le (a c : Nat) (h : a ≤ c) : 2 ^ a ≤ 2 ^ c :=
  Nat.pow_le_pow_right (by decide) h

theorem pow53_le_limit64 : 2 ^ 53 ≤ limit64 := by
  rw [limit64_eq]
  exact two_pow_le 53 1024 (by decide)

/-- Rounding an exact integer below `2^53` in absolute value is exact. -/
theorem F64.ofRatio_exact (v : Int) (d : Nat) (hd : 0 < d) (hv : v.natAbs < 2 ^ 53) :
    F64.ofRatio (v * d) d = F64.fin (v * one64) := by
  unfold F64.ofRatio
  have habs : (v * (d : Int)).natAbs = v.natAbs * d := by
    rw [Int.natAbs_mul, Int.natAbs_ofNat]
  have h1 : ¬ (limit64 ≤ (v * (d : Int)).natAbs / d) := by
    rw [habs, Nat.mul_div_cancel _ hd]
    exact fun h => absurd (lt_of_lt_of_le hv pow53_le_limit64) (not_lt.mpr h)
  have h2 : roundUnits ((v * (d : Int)).natAbs * one64) d = v.natAbs * one64 := by
    rw [habs]
    have : v.natAbs * d * one64 = v.natAbs * 2 ^ 1074 * d := by
      rw [one64_eq]; ring
    rw [this, roundUnits_exact _ _ _ hd hv, one64_eq]
  have h3 : ¬ (huge64 ≤ v.natAbs * one64) := by
    have h4 := pow53_mul_one64_lt_huge64
    have h5 : v.natAbs * one64 < 2 ^ 53 * one64 :=
      Nat.mul_lt_mul_of_pos_right hv one64_pos
    exact fun h => absurd (lt_of_lt_of_le h5 h4) (not_lt.mpr h)
  rw [if_neg h1]
  show (if huge64 ≤ roundUnits ((v * (d : Int)).natAbs * one64) d then _ else _) = _
  rw [h2, if_neg h3]
  have hdpos : (0 : Int) < d := by exact_mod_cast hd
  by_cases hneg : v < 0
  · have : v * (d : Int) < 0 := Int.mul_neg_of_neg_of_pos hneg hdpos
    simp only [this, if_true]
    congr 1
    have : (v.natAbs : Int) = -v := by omega
    rw [Nat.cast_mul, this]; ring
  · have : ¬ (v * (d : Int) < 0) := by
      have : 0 ≤ v * (d : Int) := Int.mul_nonneg (by omega) (by omega)
      omega
    rw [if_neg this]
    congr 1
    have : (v.natAbs : Int) = v := by omega
    rw [Nat.cast_mul, this]

theorem F64.ofInt_exact (v : Int) (hv : v.natAbs < 2 ^ 53) :
    F64.ofInt v = F64.fin (v * one64) := by
  have := F64.ofRatio_exact v 1 (by decide) hv
  simpa [F64.ofInt] using this

theorem F64.pow10_exact (k : Int) (h0 : 0 ≤ k) (h6 : k ≤ 6) :
    F64.pow10 k = F64.fin ((10 : Int) ^ k.toNat * one64) := by
  unfold F64.pow10
  simp only [h0, if_true]
  have hk : k.toNat ≤ 6 := by omega
  have hb : ((10 : Int) ^ k.toNat).natAbs < 2 ^ 53 := by
    rw [Int.natAbs_pow]
    calc (10 : Int).natAbs ^ k.toNat ≤ 10 ^ 6 := Nat.pow_le_pow_right (by decide) hk
      _ < 2 ^ 53 := by decide
  have := F64.ofRatio_exact ((10 : Int) ^ k.toNat) 1 (by decide) hb
  simpa using this

theorem F64.mul_exact (a b : Int) (h : (a * b).natAbs < 2 ^ 53) :
    F64.mul (F64.fin (a * one64)) (F64.fin (b * one64)) = F64.fin (a * b * one64) := by
  have hd : 0 < one64 * one64 := Nat.mul_pos one64_pos one64_pos
  have := F64.ofRatio_exact (a * b) (one64 * one64) hd h
  have e : a * (one64 : Int) * (b * (one64 : Int)) = a * b * ((one64 * one64 : Nat) : Int) := by
    push_cast; ring
  show F64.ofRatio (a * (one64 : Int) * (b * (one64 : Int))) (one64 * one64) = _
  rw [e]
  exact this

theorem F64.toInt_exact (t : Int) (h : t.natAbs < 2 ^ 53) :
    F64.toInt (F64.fin (t * one64)) = t := by
  unfold F64.toInt
  have hpos : (one64 : Int) ≠ 0 := by
    have : 0 < one64 := one64_pos
    omega
  have h1 : Int.tdiv (t * (one64 : Int)) one64 = t := Int.mul_tdiv_cancel t hpos
  simp only [h1]
  have h2 : -(2 : Int) ^ 63 ≤ t ∧ t < (2 : Int) ^ 63 := by
    have : (2 : Nat) ^ 53 ≤ 2 ^ 63 := Nat.pow_le_pow_right (by decide) (by decide)
    constructor <;> omega
  rw [if_pos h2]

end Fsp

/-! ## Digit texts and `strconv.ParseInt` -/

namespace Fsp

theorem digitVal_of_isDigit (c : Char) (h : IsDigit c) : digitVal c = some (c.toNat - 48) := by
  unfold digitVal
  rw [if_pos h]

theorem digitVal_eq_some (c : Char) (d : Nat) (h : digitVal c = some d) :
    IsDigit c ∧ d = c.toNat - 48 := by
  unfold digitVal at h
  split at h
  · rename_i hc
    exact ⟨hc, by injection h with h; exact h.symm⟩
  · cases h

theorem digitVal_lt (c : Char) (d : Nat) (h : digitVal c = some d) : d < 10 := by
  obtain ⟨⟨_, h2⟩, rfl⟩ := digitVal_eq_some c d h
  omega

theorem readDigits_of_digits (cs : List Char) :
    ∀ acc, (∀ c ∈ cs, IsDigit c) → readDigits cs acc = some (foldDigits cs acc) := by
  induction cs with
  | nil => intro acc _; rfl
  | cons c cs ih =>
    intro acc h
    have hc : IsDigit c := h c (List.mem_cons_self _ _)
    have hcs : ∀ x ∈ cs, IsDigit x := fun x hx => h x (List.mem_cons_of_mem _ hx)
    simp only [readDigits, digitVal_of_isDigit c hc]
    exact ih _ hcs

theorem readDigits_some (cs : List Char) :
    ∀ acc n, readDigits cs acc = some n → (∀ c ∈ cs, IsDigit c) ∧ n = foldDigits cs acc := by
  induction cs with
  | nil =>
    intro acc n h
    simp only [readDigits, Option.some.injEq] at h
    exact ⟨fun c hc => absurd hc (List.not_mem_nil c), h.symm⟩
  | cons c cs ih =>
    intro acc n h
    unfold readDigits at h
    cases hd : digitVal c with
    | none => rw [hd] at h; cases h
    | some d =>
      rw [hd] at h
      obtain ⟨hc, rfl⟩ := digitVal_eq_some c d hd
      obtain ⟨hall, hn⟩ := ih _ _ h
      refine ⟨?_, hn⟩
      intro x hx
      rcases List.mem_cons.1 hx with rfl | hx
      · exact hc
      · exact hall x hx

theorem foldDigits_lt (cs : List Char) :
    ∀ acc k, (∀ c ∈ cs, IsDigit c) → acc < 10 ^ k → foldDigits cs acc < 10 ^ (k + cs.length) := by
  induction cs with
  | nil => intro acc k _ h; simpa [foldDigits] using h
  | cons c cs ih =>
    intro acc k h hacc
    have hc : IsDigit c := h c (List.mem_cons_self _ _)
    have hcs : ∀ x ∈ cs, IsDigit x := fun x hx => h x (List.mem_cons_of_mem _ hx)
    have hstep : acc * 10 + (c.toNat - 48) < 10 ^ (k + 1) := by
      rw [pow_succ]
      have : c.toNat - 48 < 10 := by
        have := hc.2
        omega
      omega
    have := ih (acc * 10 + (c.toNat - 48)) (k + 1) hcs hstep
    have e : k + 1 + cs.length = k + (c :: cs).length := by
      simp only [List.length_cons]; omega
    rw [e] at this
    exact this

theorem textValue_lt (s : String) (h : ∀ c ∈ s.data, IsDigit c) :
    textValue s < 10 ^ s.data.length := by
  have := foldDigits_lt s.data 0 0 h (by decide)
  simpa [textValue] using this

theorem utf8Size_of_isDigit (c : Char) (h : IsDigit c) : c.utf8Size = 1 := by
  have h2 : c.val.toNat ≤ 127 := by
    have := h.2
    unfold Char.toNat at this
    omega
  have : c.val ≤ 127 := by
    show c.val.toNat ≤ 127
    exact h2
  unfold Char.utf8Size
  simp [this]

theorem utf8_go_of_digits (cs : List Char) (h : ∀ c ∈ cs, IsDigit c) :
    String.utf8ByteSize.go cs = cs.length := by
  induction cs with
  | nil => rfl
  | cons c cs ih =>
    have hc : IsDigit c := h c (List.mem_cons_self _ _)
    have hcs : ∀ x ∈ cs, IsDigit x := fun x hx => h x (List.mem_cons_of_mem _ hx)
    simp only [String.utf8ByteSize.go, List.length_cons, ih hcs, utf8Size_of_isDigit c hc]

theorem len_of_digits (s : String) (h : ∀ c ∈ s.data, IsDigit c) :
    len s = (s.data.length : Int) := by
  have := utf8_go_of_digits s.data h
  unfold len String.utf8ByteSize
  cases s
  simp only at this ⊢
  rw [this]

/-- On a digit text `ParseInt` reads the text value, provided it fits in 63 bits. -/
theorem ParseInt_of_digits (s : String) (hs : DigitText s) (hfit : textValue s < 2 ^ 63) :
    ParseInt s = Except.ok (textValue s : Int) := by
  obtain ⟨hne, hall⟩ := hs
  unfold ParseInt
  cases hd : s.data with
  | nil =>
    exfalso
    apply hne
    cases s
    simp only at hd
    rw [hd]
  | cons c cs =>
    have hc : IsDigit c := hall c (by rw [hd]; exact List.mem_cons_self _ _)
    have h1 : c ≠ '+' := by
      rintro rfl
      revert hc
      decide
    have h2 : c ≠ '-' := by
      rintro rfl
      revert hc
      decide
    have hr : readDigits (c :: cs) 0 = some (textValue s) := by
      have := readDigits_of_digits (c :: cs) 0 (by rw [← hd]; exact hall)
      rw [this]
      simp only [textValue, hd]
    simp only [h1, h2, if_false]
    unfold parseIntBody
    simp only [hr, hfit, if_true]
    rfl

theorem parseIntBody_ok (neg : Bool) (ds : List Char) (v : Int)
    (h : parseIntBody neg ds = Except.ok v) :
    (∀ c ∈ ds, IsDigit c) ∧ (neg = false → v = (foldDigits ds 0 : Int)) := by
  unfold parseIntBody at h
  cases ds with
  | nil => cases h
  | cons d ds =>
    simp only at h
    cases hr : readDigits (d :: ds) 0 with
    | none => rw [hr] at h; cases h
    | some un =>
      rw [hr] at h
      obtain ⟨hall, hn⟩ := readDigits_some _ _ _ hr
      refine ⟨hall, ?_⟩
      intro hneg
      subst hneg
      simp only [Bool.false_eq_true, if_false] at h
      split at h
      · injection h with h
        rw [← h, hn]
      · cases h

theorem ParseInt_ok_chars (s : String) (v : Int) (h : ParseInt s = Except.ok v) :
    ∀ c ∈ s.data, IsDigit c ∨ c = '+' ∨ c = '-' := by
  unfold ParseInt at h
  cases hd : s.data with
  | nil => rw [hd] at h; cases h
  | cons c cs =>
    rw [hd] at h
    simp only at h
    intro x hx
    split at h
    · rename_i hc
      rcases List.mem_cons.1 hx with rfl | hx
      · exact Or.inr (Or.inl hc)
      · exact Or.inl ((parseIntBody_ok _ _ _ h).1 x hx)
    · split at h
      · rename_i hc
        rcases List.mem_cons.1 hx with rfl | hx
        · exact Or.inr (Or.inr hc)
        · exact Or.inl ((parseIntBody_ok _ _ _ h).1 x hx)
      · exact Or.inl ((parseIntBody_ok _ _ _ h).1 x hx)

theorem ParseInt_ok_nonneg (s : String) (v : Int) (h : ParseInt s = Except.ok v)
    (hminus : s.data.head? ≠ some '-') :
    0 ≤ v ∧ v < (10 : Int) ^ s.data.length := by
  unfold ParseInt at h
  cases hd : s.data with
  | nil => rw [hd] at h; cases h
  | cons c cs =>
    rw [hd] at h hminus
    simp only at h
    have hcm : c ≠ '-' := by
      intro hc
      apply hminus
      rw [hc]
      rfl
    have key : ∀ ds : List Char, ds.length ≤ (c :: cs).length →
        parseIntBody false ds = Except.ok v → 0 ≤ v ∧ v < (10 : Int) ^ (c :: cs).length := by
      intro ds hlen hb
      obtain ⟨hall, hv⟩ := parseIntBody_ok _ _ _ hb
      have hv := hv rfl
      have hlt := foldDigits_lt ds 0 0 hall (by decide)
      rw [Nat.zero_add] at hlt
      have hle : (10 : Nat) ^ ds.length ≤ 10 ^ (c :: cs).length :=
        Nat.pow_le_pow_right (by decide) hlen
      have h3 : foldDigits ds 0 < 10 ^ (c :: cs).length := lt_of_lt_of_le hlt hle
      rw [hv]
      constructor
      · exact Int.ofNat_nonneg _
      · exact_mod_cast h3
    by_cases hcp : c = '+'
    · rw [if_pos hcp] at h
      exact key cs (by simp) h
    · rw [if_neg hcp, if_neg hcm] at h
      exact key (c :: cs) (le_refl _) h

end Fsp

/-! ## The fill path of `parseFrac` (`fsp > len(s)`) -/

namespace Fsp

theorem checkFsp_of_valid (fsp : Int) (h0 : 0 ≤ fsp) (h6 : fsp ≤ 6) :
    checkFsp fsp = (fsp, none) := by
  unfold checkFsp UnspecifiedFsp MinFsp MaxFsp DefaultFsp
  have h1 : fsp ≠ -1 := by omega
  have h2 : ¬ (fsp < 0 ∨ fsp > 6) := by omega
  simp [h1, h2]

/-- The fill path computes `v * 10^k` exactly whenever the product is below `10^6`. -/
theorem fill_exact (v : Int) (k : Int) (h0 : 0 ≤ k) (h6 : k ≤ 6)
    (hb : (v * 10 ^ k.toNat).natAbs < 10 ^ 6) :
    F64.toInt (F64.mul (F64.ofInt v) (F64.pow10 k)) = v * 10 ^ k.toNat := by
  have h53 : (10 : Nat) ^ 6 < 2 ^ 53 := by decide
  have hv : v.natAbs < 2 ^ 53 := by
    have h1 : 1 ≤ ((10 : Int) ^ k.toNat).natAbs := by
      rw [Int.natAbs_pow]
      exact Nat.one_le_pow _ _ (by decide)
    have h2 : v.natAbs ≤ (v * 10 ^ k.toNat).natAbs := by
      rw [Int.natAbs_mul]
      exact Nat.le_mul_of_pos_right _ h1
    omega
  rw [F64.ofInt_exact v hv, F64.pow10_exact k h0 h6, F64.mul_exact _ _ (by omega),
    F64.toInt_exact _ (by omega)]

/-- C3 (amended to `p > len(text)`): for every non-empty ASCII-digit text and
every precision `p ≤ 6` strictly greater than the length of the text,
`parseFrac` returns the integer value of the text times `10^(p - len(text))`,
with no error and no overflow. -/
theorem parseFrac_fill (s : String) (p : Int) (hs : DigitText s) (h6 : p ≤ 6)
    (hlen : len s < p) :
    parseFrac s p = ((textValue s : Int) * 10 ^ (p - len s).toNat, none, false) := by
  have hl : len s ≠ 0 := fun h => hs.1 ((len_eq_zero_iff s).1 h)
  have hl0 := len_nonneg s
  have hp0 : 0 ≤ p := by omega
  have hL := len_of_digits s hs.2
  have hval := textValue_lt s hs.2
  have hLle : s.data.length ≤ 5 := by omega
  have hv5 : textValue s < 10 ^ 5 :=
    lt_of_lt_of_le hval (Nat.pow_le_pow_right (by decide) hLle)
  have hfit : textValue s < 2 ^ 63 := lt_trans hv5 (by decide)
  have hk0 : 0 ≤ p - len s := by omega
  have hk6 : p - len s ≤ 6 := by omega
  have hprod : ((textValue s : Int) * 10 ^ (p - len s).toNat).natAbs < 10 ^ 6 := by
    have e : ((textValue s : Int) * 10 ^ (p - len s).toNat).natAbs
        = textValue s * 10 ^ (p - len s).toNat := by
      rw [Int.natAbs_mul, Int.natAbs_pow]
      rfl
    rw [e]
    have hk : (p - len s).toNat + s.data.length ≤ 6 := by omega
    calc textValue s * 10 ^ (p - len s).toNat
        < 10 ^ s.data.length * 10 ^ (p - len s).toNat :=
          Nat.mul_lt_mul_of_pos_right hval (pow_pos (by decide) _)
      _ = 10 ^ ((p - len s).toNat + s.data.length) := by rw [← pow_add, Nat.add_comm]
      _ ≤ 10 ^ 6 := Nat.pow_le_pow_right (by decide) hk
  unfold parseFrac
  rw [if_neg hl, checkFsp_of_valid p hp0 h6]
  simp only
  rw [if_pos (show p > len s from hlen), ParseInt_of_digits s hs hfit]
  simp only
  rw [fill_exact _ _ hk0 hk6 hprod]

/-- Witness of `parseFrac_fill`: `parseFrac("12", 6) = (120000, nil, false)`. -/
theorem parseFrac_fill_witness :
    DigitText "12" ∧ parseFrac "12" 6 = ((textValue "12" : Int) * 10 ^ (6 - len "12").toNat, none, false) ∧
    (textValue "12" : Int) * 10 ^ (6 - len "12").toNat = 120000 :=
  ⟨by decide, parseFrac_fill "12" 6 (by decide) (by decide) (by decide), by decide⟩

/-- C3 as stated fails when the precision equals the length of the text: the
source takes the fill path only for `fsp > len(s)`, so `parseFrac("12", 2)` goes
through the rounding path and returns `120000`, not `12 * 10^(2-2) = 12`. -/
theorem equal_length_takes_rounding_path :
    DigitText "12" ∧ (2 : Int) ≥ len "12" ∧
    parseFrac "12" 2 = (120000, none, false) ∧
    parseFrac "12" 2 ≠ ((textValue "12" : Int) * 10 ^ (2 - len "12").toNat, none, false) := by
  decide!

end Fsp

/-! ## The decimal float reader -/

namespace Fsp

theorem readMant_split (cs : List Char) :
    ∀ (sd : Bool) (m f : Nat), ∃ pre, cs = pre ++ (readMant cs true sd m f).2.2.2 ∧
      ∀ c ∈ pre, IsDigit c ∨ c = '_' := by
  induction cs with
  | nil => intro sd m f; exact ⟨[], rfl, fun c hc => absurd hc (List.not_mem_nil c)⟩
  | cons c cs ih =>
    intro sd m f
    unfold readMant
    by_cases h1 : c = '_'
    · rw [if_pos h1]
      obtain ⟨pre, hpre, hall⟩ := ih sd m f
      refine ⟨c :: pre, by rw [List.cons_append, ← hpre], ?_⟩
      intro x hx
      rcases List.mem_cons.1 hx with rfl | hx
      · exact Or.inr h1
      · exact hall x hx
    · rw [if_neg h1]
      by_cases h2 : c = '.'
      · rw [if_pos h2]
        exact ⟨[], rfl, fun c hc => absurd hc (List.not_mem_nil c)⟩
      · rw [if_neg h2]
        cases hd : digitVal c with
        | none => exact ⟨[], rfl, fun c hc => absurd hc (List.not_mem_nil c)⟩
        | some d =>
          simp only
          obtain ⟨pre, hpre, hall⟩ := ih true (m * 10 + d) (if True then f + 1 else f)
          refine ⟨c :: pre, by rw [List.cons_append, ← hpre], ?_⟩
          intro x hx
          rcases List.mem_cons.1 hx with rfl | hx
          · exact Or.inl (digitVal_eq_some _ _ hd).1
          · exact hall x hx

theorem readExp_split (cs : List Char) :
    ∀ (e : Nat), ∃ pre, cs = pre ++ (readExp cs e).2 ∧ ∀ c ∈ pre, IsDigit c ∨ c = '_' := by
  induction cs with
  | nil => intro e; exact ⟨[], rfl, fun c hc => absurd hc (List.not_mem_nil c)⟩
  | cons c cs ih =>
    intro e
    unfold readExp
    by_cases h1 : c = '_'
    · rw [if_pos h1]
      obtain ⟨pre, hpre, hall⟩ := ih e
      refine ⟨c :: pre, by rw [List.cons_append, ← hpre], ?_⟩
      intro x hx
      rcases List.mem_cons.1 hx with rfl | hx
      · exact Or.inr h1
      · exact hall x hx
    · rw [if_neg h1]
      cases hd : digitVal c with
      | none => exact ⟨[], rfl, fun c hc => absurd hc (List.not_mem_nil c)⟩
      | some d =>
        simp only
        obtain ⟨pre, hpre, hall⟩ := ih (if e < 10000 then e * 10 + d else e)
        refine ⟨c :: pre, by rw [List.cons_append, ← hpre], ?_⟩
        intro x hx
        rcases List.mem_cons.1 hx with rfl | hx
        · exact Or.inl (digitVal_eq_some _ _ hd).1
        · exact hall x hx

theorem readExpDigits_chars (eneg : Bool) (ds : List Char) (e : Int)
    (h : readExpDigits eneg ds = some e) : ∀ c ∈ ds, IsDigit c ∨ c = '_' := by
  unfold readExpDigits at h
  cases ds with
  | nil => cases h
  | cons d ds =>
    simp only at h
    split at h
    · obtain ⟨pre, hpre, hall⟩ := readExp_split (d :: ds) 0
      cases hr : readExp (d :: ds) 0 with
      | mk e2 rest =>
        rw [hr] at h hpre
        cases rest with
        | nil =>
          simp only [List.append_nil] at hpre
          rw [hpre]
          exact hall
        | cons x xs => cases h
    · cases h

theorem readExpPart_chars (after : List Char) (e : Int) (h : readExpPart after = some e) :
    ∀ c ∈ after, IsNumChar c := by
  have lift : ∀ ds : List Char, (∀ c ∈ ds, IsDigit c ∨ c = '_') → ∀ c ∈ ds, IsNumChar c := by
    intro ds hds c hc
    rcases hds c hc with h | h
    · exact Or.inl h
    · exact Or.inr (Or.inr (Or.inr (Or.inr (Or.inr h))))
  unfold readExpPart at h
  cases after with
  | nil => cases h
  | cons x more =>
    simp only at h
    intro c hc
    by_cases hp : x = '+'
    · rw [if_pos hp] at h
      rcases List.mem_cons.1 hc with rfl | hc
      · exact Or.inr (Or.inl hp)
      · exact lift _ (readExpDigits_chars _ _ _ h) c hc
    · rw [if_neg hp] at h
      by_cases hm : x = '-'
      · rw [if_pos hm] at h
        rcases List.mem_cons.1 hc with rfl | hc
        · exact Or.inr (Or.inr (Or.inl hm))
        · exact lift _ (readExpDigits_chars _ _ _ h) c hc
      · rw [if_neg hm] at h
        exact lift _ (readExpDigits_chars _ _ _ h) c hc

theorem finishFloat_chars (neg : Bool) (sd : Bool) (m f : Nat) (rest : List Char)
    (x : Bool × Nat × Int) (h : finishFloat neg (sd, m, f, rest) = some x) :
    x.1 = neg ∧ ∀ c ∈ rest, IsNumChar c := by
  unfold finishFloat at h
  cases sd with
  | false => cases h
  | true =>
    simp only at h
    cases rest with
    | nil =>
      simp only [Option.some.injEq] at h
      exact ⟨by rw [← h], fun c hc => absurd hc (List.not_mem_nil c)⟩
    | cons c after =>
      simp only at h
      split at h
      · rename_i hce
        cases hr : readExpPart after with
        | none => rw [hr] at h; cases h
        | some e =>
          rw [hr] at h
          simp only [Option.some.injEq] at h
          refine ⟨by rw [← h], ?_⟩
          intro y hy
          rcases List.mem_cons.1 hy with rfl | hy
          · rcases hce with hce | hce
            · exact Or.inr (Or.inr (Or.inr (Or.inl hce)))
            · exact Or.inr (Or.inr (Or.inr (Or.inr (Or.inl hce))))
          · exact readExpPart_chars _ _ hr y hy
      · cases h

/-- After the decimal point has been read, the float reader only accepts
digits, underscores and an exponent part. -/
theorem afterDot_chars (neg sd : Bool) (m f : Nat) (b : List Char) (x : Bool × Nat × Int)
    (h : finishFloat neg (readMant b true sd m f) = some x) : ∀ c ∈ b, IsNumChar c := by
  obtain ⟨pre, hpre, hall⟩ := readMant_split b sd m f
  cases hr : readMant b true sd m f with
  | mk sd2 r2 =>
    obtain ⟨m2, f2, rest⟩ := r2
    rw [hr] at h hpre
    simp only at hpre
    have hrest := (finishFloat_chars _ _ _ _ _ _ h).2
    intro c hc
    rw [hpre] at hc
    rcases List.mem_append.1 hc with hc | hc
    · rcases hall c hc with h | h
      · exact Or.inl h
      · exact Or.inr (Or.inr (Or.inr (Or.inr (Or.inr h))))
    · exact hrest c hc

theorem readFloat_dot (b : List Char) :
    readFloat ('.' :: b) = finishFloat false (readMant b true false 0 0) := by
  rfl

theorem readFloat_zero_dot (b : List Char) :
    readFloat ('0' :: '.' :: b) = finishFloat false (readMant b true true 0 0) := by
  rfl

end Fsp

/-! ## The text handed to `ParseFloat` -/

namespace Fsp

theorem data_zeroDot_append (s : String) : ("0." ++ s).data = '0' :: '.' :: s.data := by
  rw [String.data_append]
  rfl

theorem stripLead_mem (cs : List Char) : ∀ c ∈ stripLead cs, c ∈ cs := by
  intro c hc
  unfold stripLead at hc
  cases cs with
  | nil => exact hc
  | cons a r =>
    simp only at hc
    split at hc
    · exact List.mem_cons_of_mem _ hc
    · split at hc
      · cases r with
        | nil => exact hc
        | cons d r2 =>
          simp only at hc
          split at hc
          · exact List.mem_cons_of_mem _ (List.mem_cons_of_mem _ hc)
          · exact hc
      · exact hc

/-- The text handed to `ParseFloat` is `.` or `0.` followed by the text
without its leading `.` or `0.`. -/
theorem fracText_data (s : String) :
    (fracText s).data = '.' :: stripLead s.data ∨
    (fracText s).data = '0' :: '.' :: stripLead s.data := by
  unfold fracText HasPrefix
  have e1 : ".".data = ['.'] := rfl
  have e2 : "0.".data = ['0', '.'] := rfl
  rw [e1, e2]
  cases hd : s.data with
  | nil =>
    right
    simp only [List.isPrefixOf, Bool.not_false, Bool.and_self, if_true]
    rw [data_zeroDot_append, hd]
    rfl
  | cons c r =>
    by_cases h1 : c = '.'
    · left
      subst h1
      simp only [List.isPrefixOf, beq_self_eq_true, Bool.and_true, Bool.not_true, Bool.false_and,
        Bool.false_eq_true, if_false, Bool.true_and]
      rw [hd]
      rfl
    · by_cases h0 : c = '0'
      · subst h0
        cases r with
        | nil =>
          right
          have : (['0', '.'].isPrefixOf ['0']) = false := by decide
          have h3 : (['.'].isPrefixOf ['0']) = false := by decide
          rw [this, h3]
          simp only [Bool.not_false, Bool.and_self, if_true]
          rw [data_zeroDot_append, hd]
          rfl
        | cons d r2 =>
          by_cases hdot : d = '.'
          · subst hdot
            right
            have : (['0', '.'].isPrefixOf ('0' :: '.' :: r2)) = true := by
              simp [List.isPrefixOf]
            rw [this]
            simp only [Bool.not_true, Bool.and_false, Bool.false_eq_true, if_false]
            rw [hd]
            rfl
          · right
            have h4 : (['0', '.'].isPrefixOf ('0' :: d :: r2)) = false := by
              simp [List.isPrefixOf]
              intro h; exact absurd h.symm hdot
            have h3 : (['.'].isPrefixOf ('0' :: d :: r2)) = false := by
              simp [List.isPrefixOf]
            rw [h4, h3]
            simp only [Bool.not_false, Bool.and_self, if_true]
            rw [data_zeroDot_append, hd]
            simp [stripLead, hdot]
      · right
        have h4 : (['0', '.'].isPrefixOf (c :: r)) = false := by
          simp [List.isPrefixOf]
          intro h; exact absurd h.symm h0
        have h3 : (['.'].isPrefixOf (c :: r)) = false := by
          simp [List.isPrefixOf]
          intro h; exact absurd h.symm h1
        rw [h4, h3]
        simp only [Bool.not_false, Bool.and_self, if_true]
        rw [data_zeroDot_append, hd]
        simp [stripLead, h0, h1]

/-- A character outside the number syntax, anywhere after the leading `.` or
`0.`, makes `ParseFloat` fail with a syntax error. -/
theorem ParseFloat_fracText_malformed (s : String) (c : Char) (hc : c ∈ stripLead s.data)
    (hbad : ¬ IsNumChar c) : ParseFloat (fracText s) = Except.error Err.malformed := by
  have hnone : readFloat (fracText s).data = none := by
    rcases fracText_data s with h | h
    · rw [h, readFloat_dot]
      cases hf : finishFloat false (readMant (stripLead s.data) true false 0 0) with
      | none => rfl
      | some x => exact absurd (afterDot_chars _ _ _ _ _ _ hf c hc) hbad
    · rw [h, readFloat_zero_dot]
      cases hf : finishFloat false (readMant (stripLead s.data) true true 0 0) with
      | none => rfl
      | some x => exact absurd (afterDot_chars _ _ _ _ _ _ hf c hc) hbad
  unfold ParseFloat
  rw [hnone]

theorem ParseInt_malformed (s : String) (c : Char) (hc : c ∈ s.data)
    (hbad : ¬ IsNumChar c) : ParseInt s = Except.error Err.malformed := by
  cases h : ParseInt s with
  | ok v =>
    exfalso
    apply hbad
    rcases ParseInt_ok_chars s v h c hc with h | h | h
    · exact Or.inl h
    · exact Or.inr (Or.inl h)
    · exact Or.inr (Or.inr (Or.inl h))
  | error e =>
    -- the only error with a bad character is the syntax error
    unfold ParseInt at h
    cases hd : s.data with
    | nil => rw [hd] at hc; exact absurd hc (List.not_mem_nil c)
    | cons a r =>
      rw [hd] at h
      simp only at h
      have key : ∀ neg ds, (∃ x ∈ ds, ¬ IsDigit x) → parseIntBody neg ds = Except.error e →
          e = Err.malformed := by
        intro neg ds ⟨x, hx, hxd⟩ hb
        unfold parseIntBody at hb
        cases ds with
        | nil => exact absurd hx (List.not_mem_nil x)
        | cons y ys =>
          simp only at hb
          cases hr : readDigits (y :: ys) 0 with
          | none =>
            rw [hr] at hb
            injection hb with hb
            exact hb.symm
          | some un => exact absurd ((readDigits_some _ _ _ hr).1 x hx) hxd
      have hcd : ¬ IsDigit c := fun h => hbad (Or.inl h)
      rw [hd] at hc
      congr 1
      by_cases hp : a = '+'
      · rw [if_pos hp] at h
        rcases List.mem_cons.1 hc with rfl | hc
        · exact absurd (Or.inr (Or.inl hp)) hbad
        · exact key _ _ ⟨c, hc, hcd⟩ h
      · rw [if_neg hp] at h
        by_cases hm : a = '-'
        · rw [if_pos hm] at h
          rcases List.mem_cons.1 hc with rfl | hc
          · exact absurd (Or.inr (Or.inr (Or.inl hm))) hbad
          · exact key _ _ ⟨c, hc, hcd⟩ h
        · rw [if_neg hm] at h
          exact key _ _ ⟨c, hc, hcd⟩ h

/-- C8 (amended): for every valid precision `p` in `[0,6]` and every text that,
after a leading `.` or `0.`, contains a character that is neither an ASCII
digit nor one of `+ - e E _`, `parseFrac` fails with a parse error (value `0`,
no overflow), on the integer path and on the float path alike. -/
theorem parseFrac_malformed (s : String) (p : Int) (c : Char) (h0 : 0 ≤ p) (h6 : p ≤ 6)
    (hc : c ∈ stripLead s.data) (hbad : ¬ IsNumChar c) :
    parseFrac s p = (0, some Err.malformed, false) := by
  have hmem : c ∈ s.data := stripLead_mem _ c hc
  have hl : len s ≠ 0 := by
    intro h
    rw [(len_eq_zero_iff s).1 h] at hmem
    exact absurd hmem (List.not_mem_nil c)
  unfold parseFrac
  rw [if_neg hl, checkFsp_of_valid p h0 h6]
  simp only
  split
  · rw [ParseInt_malformed s c hmem hbad]
  · rw [ParseFloat_fracText_malformed s c hc hbad]

/-- Witness of `parseFrac_malformed`: `parseFrac("12a3", p)` is a parse error
on the float path (`p = 2`) and on the integer path (`p = 6`). -/
theorem parseFrac_malformed_witness :
    parseFrac "12a3" 2 = (0, some Err.malformed, false) ∧
    parseFrac "12a3" 6 = (0, some Err.malformed, false) :=
  ⟨parseFrac_malformed "12a3" 2 'a' (by decide) (by decide) (by decide) (by decide),
   parseFrac_malformed "12a3" 6 'a' (by decide) (by decide) (by decide) (by decide)⟩

end Fsp

/-! ## The rounding path of `parseFrac` (`fsp <= len(s)`) -/

namespace Fsp

theorem F64.ofRatio_nonneg (n : Int) (d : Nat) (hn : 0 ≤ n) :
    F64.ofRatio n d = F64.inf false ∨ ∃ u : Int, 0 ≤ u ∧ F64.ofRatio n d = F64.fin u := by
  have hneg : ¬ (n < 0) := by omega
  unfold F64.ofRatio
  split
  · left
    simp [hneg]
  · dsimp only
    split
    · left
      simp [hneg]
    · right
      exact ⟨_, Int.ofNat_nonneg _, rfl⟩

theorem readFloat_neg (cs : List Char) (x : Bool × Nat × Int) (h : readFloat cs = some x)
    (hminus : cs.head? ≠ some '-') : x.1 = false := by
  unfold readFloat at h
  cases cs with
  | nil => cases h
  | cons c rest =>
    simp only at h
    have hcm : c ≠ '-' := by
      intro hc
      apply hminus
      rw [hc]
      rfl
    rw [if_neg hcm] at h
    have key : ∀ body, readFloatBody false body = some x → x.1 = false := by
      intro body hb
      unfold readFloatBody at hb
      cases hr : readMant body false false 0 0 with
      | mk sd r2 =>
        obtain ⟨m2, f2, rest2⟩ := r2
        rw [hr] at hb
        exact (finishFloat_chars _ _ _ _ _ _ hb).1
    split at h
    · exact key _ h
    · exact key _ h

theorem ParseFloat_ok_nonneg (s : String) (frac : F64) (h : ParseFloat s = Except.ok frac)
    (hminus : s.data.head? ≠ some '-') : ∃ u : Int, 0 ≤ u ∧ frac = F64.fin u := by
  unfold ParseFloat at h
  cases hr : readFloat s.data with
  | none => rw [hr] at h; cases h
  | some x =>
    obtain ⟨neg, m, e⟩ := x
    have hneg : neg = false := readFloat_neg _ _ hr hminus
    subst hneg
    rw [hr] at h
    simp only at h
    split at h
    · cases h
    · simp only [Bool.false_eq_true, if_false] at h
      have hm : (0 : Int) ≤ (m : Int) := Int.ofNat_nonneg _
      by_cases he : 0 ≤ e
      · rw [if_pos he] at h
        have hn : (0 : Int) ≤ (m : Int) * 10 ^ e.toNat :=
          Int.mul_nonneg hm (pow_nonneg (by decide) _)
        rcases F64.ofRatio_nonneg _ 1 hn with hv | ⟨u, hu, hv⟩
        · rw [hv] at h; cases h
        · rw [hv] at h
          injection h with h
          exact ⟨u, hu, h.symm⟩
      · rw [if_neg he] at h
        rcases F64.ofRatio_nonneg (m : Int) (10 ^ (-e).toNat) hm with hv | ⟨u, hu, hv⟩
        · rw [hv] at h; cases h
        · rw [hv] at h
          injection h with h
          exact ⟨u, hu, h.symm⟩

theorem fracText_head (s : String) : (fracText s).data.head? ≠ some '-' := by
  rcases fracText_data s with h | h <;> rw [h] <;> simp

/-- On a non-negative finite fraction the rounding step either reports an
overflow or returns `R * 10^(6 - fsp)` for an integer `0 ≤ R < 10^fsp`. -/
theorem roundFrac_fin (u : Int) (p : Int) (hu : 0 ≤ u) (h0 : 0 ≤ p) (h6 : p ≤ 6) :
    roundFrac (F64.fin u) p = (0, none, true) ∨
    ∃ R : Int, 0 ≤ R ∧ R < 10 ^ p.toNat ∧
      roundFrac (F64.fin u) p = (R * 10 ^ (6 - p).toNat, none, false) := by
  have hone : (0 : Int) < (one64 : Int) := by exact_mod_cast one64_pos
  have hpow : F64.powTen p = F64.fin ((10 : Int) ^ p.toNat * one64) := F64.pow10_exact p h0 h6
  have hpow2 : F64.pow10 p = F64.fin ((10 : Int) ^ p.toNat * one64) := F64.pow10_exact p h0 h6
  have hpow3 : F64.pow10 (MaxFsp - p) = F64.fin ((10 : Int) ^ (6 - p).toNat * one64) := by
    unfold MaxFsp
    exact F64.pow10_exact (6 - p) (by omega) (by omega)
  have hdig : F64.mul (F64.powTen p) (F64.fin u) = F64.inf false ∨
      ∃ w : Int, 0 ≤ w ∧ F64.mul (F64.powTen p) (F64.fin u) = F64.fin w := by
    rw [hpow]
    show F64.ofRatio _ _ = _ ∨ ∃ w : Int, 0 ≤ w ∧ F64.ofRatio _ _ = _
    exact F64.ofRatio_nonneg _ _
      (Int.mul_nonneg (Int.mul_nonneg (pow_nonneg (by decide) _) (le_of_lt hone)) hu)
  -- the success branch on a rounded integer `R`
  have fin_case : ∀ R : Int, 0 ≤ R →
      ((if F64.ge (F64.fin (R * one64)) (F64.pow10 p) = true then
          ((0 : Int), (none : Option Err), true)
        else (F64.toInt (F64.mul (F64.fin (R * one64)) (F64.pow10 (MaxFsp - p))), none, false))
        = (0, none, true)) ∨
      ∃ R' : Int, 0 ≤ R' ∧ R' < 10 ^ p.toNat ∧
        (if F64.ge (F64.fin (R * one64)) (F64.pow10 p) = true then
          ((0 : Int), (none : Option Err), true)
        else (F64.toInt (F64.mul (F64.fin (R * one64)) (F64.pow10 (MaxFsp - p))), none, false))
        = (R' * 10 ^ (6 - p).toNat, none, false) := by
    intro R hR
    by_cases hge : F64.ge (F64.fin (R * one64)) (F64.pow10 p) = true
    · left
      rw [if_pos hge]
    · right
      rw [if_neg hge]
      have hlt : R < 10 ^ p.toNat := by
        rw [hpow2] at hge
        simp only [F64.ge, decide_eq_true_eq, not_le] at hge
        exact lt_of_mul_lt_mul_right hge (le_of_lt hone)
      refine ⟨R, hR, hlt, ?_⟩
      have hprod : (R * 10 ^ (6 - p).toNat).natAbs < 2 ^ 53 := by
        have h1 : R * 10 ^ (6 - p).toNat < 10 ^ p.toNat * 10 ^ (6 - p).toNat :=
          Int.mul_lt_mul_of_pos_right hlt (pow_pos (by decide) _)
        have h2 : (10 : Int) ^ p.toNat * 10 ^ (6 - p).toNat = 10 ^ 6 := by
          rw [← pow_add]
          congr 1
          omega
        have h3 : 0 ≤ R * 10 ^ (6 - p).toNat := Int.mul_nonneg hR (pow_nonneg (by decide) _)
        rw [h2] at h1
        have h4 : (10 : Int) ^ 6 < 2 ^ 53 := by decide
        omega
      rw [hpow3, F64.mul_exact _ _ hprod, F64.toInt_exact _ hprod]
  unfold roundFrac
  dsimp only
  rcases hdig with hinf | ⟨w, hw, hfin⟩
  · left
    rw [hinf]
    have : F64.ge (F64.modf (F64.inf false)).2 (F64.ofRatio 1 2) = false := rfl
    rw [this]
    simp only [Bool.false_eq_true, if_false]
    rw [hpow2]
    rfl
  · rw [hfin]
    by_cases hdiv : F64.ge (F64.modf (F64.fin w)).2 (F64.ofRatio 1 2) = true
    · rw [if_pos hdiv]
      have hR : (0 : Int) ≤ -((-w) / (one64 : Int)) := by
        have : (-w) / (one64 : Int) < 1 :=
          Int.ediv_lt_of_lt_mul hone (by omega)
        omega
      exact fin_case _ hR
    · rw [if_neg hdiv]
      have hR : (0 : Int) ≤ w / (one64 : Int) := Int.ediv_nonneg hw (le_of_lt hone)
      exact fin_case _ hR

theorem checkFsp_ok (fsp p : Int) (h : checkFsp fsp = (p, none)) : 0 ≤ p ∧ p ≤ 6 := by
  unfold checkFsp UnspecifiedFsp MinFsp MaxFsp DefaultFsp at h
  split at h
  · injection h with h1 _
    omega
  · split at h
    · injection h with _ h2
      cases h2
    · injection h with h1 _
      omega

end Fsp

/-! ## Range of the value returned on success -/

namespace Fsp

theorem parseFrac_success_range (s : String) (fsp v : Int)
    (hminus : s.data.head? ≠ some '-') (h : parseFrac s fsp = (v, none, false)) :
    0 ≤ v ∧ v ≤ 999999 := by
  unfold parseFrac at h
  split at h
  · injection h with h1 _
    omega
  · split at h
    · injection h with _ h2
      injection h2 with h2 _
      cases h2
    · rename_i p hcheck
      obtain ⟨h0, h6⟩ := checkFsp_ok _ _ hcheck
      split at h
      · rename_i hgt
        cases hi : ParseInt s with
        | error e =>
          rw [hi] at h
          injection h with _ h2
          injection h2 with h2 _
          cases h2
        | ok v0 =>
          rw [hi] at h
          simp only at h
          obtain ⟨hv0, hv1⟩ := ParseInt_ok_nonneg s v0 hi hminus
          have hlen := len_ge_length s
          have hk0 : 0 ≤ p - len s := by omega
          have hk6 : p - len s ≤ 6 := by
            have := len_nonneg s
            omega
          have hpk : (0 : Int) < 10 ^ (p - len s).toNat := pow_pos (by decide) _
          have hprod0 : 0 ≤ v0 * 10 ^ (p - len s).toNat := Int.mul_nonneg hv0 (le_of_lt hpk)
          have hprod : v0 * 10 ^ (p - len s).toNat < 10 ^ 6 := by
            have h1 : v0 * 10 ^ (p - len s).toNat
                < 10 ^ s.data.length * 10 ^ (p - len s).toNat :=
              Int.mul_lt_mul_of_pos_right hv1 hpk
            have h2 : (10 : Int) ^ s.data.length * 10 ^ (p - len s).toNat
                ≤ 10 ^ 6 := by
              rw [← pow_add]
              apply pow_le_pow_right₀ (by decide)
              omega
            omega
          have hnat : (v0 * 10 ^ (p - len s).toNat).natAbs < 10 ^ 6 := by
            have h10 : ((10 : Nat) ^ 6 : Int) = 10 ^ 6 := by norm_num
            omega
          rw [fill_exact v0 _ hk0 hk6 hnat] at h
          injection h with h1 _
          rw [← h1]
          constructor
          · exact hprod0
          · have : (10 : Int) ^ 6 = 1000000 := by norm_num
            omega
      · cases hf : ParseFloat (fracText s) with
        | error e =>
          rw [hf] at h
          injection h with _ h2
          injection h2 with h2 _
          cases h2
        | ok frac =>
          rw [hf] at h
          simp only at h
          obtain ⟨u, hu, rfl⟩ := ParseFloat_ok_nonneg _ _ hf (fracText_head s)
          rcases roundFrac_fin u p hu h0 h6 with hov | ⟨R, hR0, hR1, hres⟩
          · rw [hov] at h
            injection h with _ h2
            injection h2 with _ h3
            cases h3
          · rw [hres] at h
            injection h with h1 _
            rw [← h1]
            have hpk : (0 : Int) < 10 ^ (6 - p).toNat := pow_pos (by decide) _
            have h2 : R * 10 ^ (6 - p).toNat < 10 ^ p.toNat * 10 ^ (6 - p).toNat :=
              Int.mul_lt_mul_of_pos_right hR1 hpk
            have h3 : (10 : Int) ^ p.toNat * 10 ^ (6 - p).toNat = 10 ^ 6 := by
              rw [← pow_add]
              congr 1
              omega
            have h4 : (10 : Int) ^ 6 = 1000000 := by norm_num
            constructor
            · exact Int.mul_nonneg hR0 (le_of_lt hpk)
            · omega

/-- C4 (amended to texts that do not begin with a minus sign): for every such
text and every integer precision, if `parseFrac` succeeds (no error, no
overflow) then the returned value lies in `[0, 999999]`. -/
theorem parseFrac_value_range (s : String) (fsp : Int)
    (hminus : s.data.head? ≠ some '-')
    (herr : (parseFrac s fsp).2.1 = none) (hov : (parseFrac s fsp).2.2 = false) :
    0 ≤ (parseFrac s fsp).1 ∧ (parseFrac s fsp).1 ≤ 999999 := by
  rcases parseFrac_cases s fsp with ⟨v, h⟩ | ⟨e, h⟩ | h
  · rw [h]
    exact parseFrac_success_range s fsp v hminus h
  · rw [h] at herr
    cases herr
  · rw [h] at hov
    cases hov

/-- Witness of `parseFrac_value_range` at `parseFrac("+5", 6)`, which succeeds
with value `50000`. -/
theorem parseFrac_value_range_witness :
    (parseFrac "+5" 6).2.1 = none ∧ (parseFrac "+5" 6).2.2 = false ∧
    0 ≤ (parseFrac "+5" 6).1 ∧ (parseFrac "+5" 6).1 ≤ 999999 :=
  ⟨by decide!, by decide!,
    parseFrac_value_range "+5" 6 (by decide) (by decide!) (by decide!)⟩

/-- C4 as stated fails on a signed text: `parseFrac("-5", 6)` takes the fill
path, where `strconv.ParseInt` accepts the sign, and succeeds with the value
`-50000`. -/
theorem parseFrac_negative_value :
    parseFrac "-5" 6 = (-50000, none, false) ∧ ¬ (0 ≤ (parseFrac "-5" 6).1) := by
  decide!

/-- C8 as stated fails: a text with a sign or an exponent letter is not a
digit text, yet `parseFrac("+5", 6)` succeeds on the integer path and
`parseFrac("1e2", 1)` reports an overflow, not an error, on the float path. -/
theorem parseFrac_nondigit_accepted :
    (∃ c ∈ "+5".data, ¬ IsDigit c) ∧ parseFrac "+5" 6 = (50000, none, false) ∧
    (∃ c ∈ "1e2".data, ¬ IsDigit c) ∧ parseFrac "1e2" 1 = (0, none, true) := by
  decide!

/-! ## Round-half-up against the binary64 computation -/

/-- C1 at `parseFrac("145", 2)`: the text is three digits, the precision is
below its length, and exact round-half-up of `14.5` is `15 < 100`, so the
claimed result is `150000`; the binary64 product `100 * 0.145` is just below
`14.5` and the code returns `140000`. -/
theorem parseFrac_145_rounds_down :
    DigitText "145" ∧ (2 : Int) < len "145" ∧
    halfUp (textValue "145") 3 2 = 15 ∧
    parseFrac "145" 2 = (140000, none, false) := by
  decide!

/-- C2 at `parseFrac("99499999999999999999", 2)`: exact round-half-up of
`99.499999999999999999` is `99 < 100`, no overflow; the nearest binary64 to
the fraction is the one nearest to `0.995`, the product rounds to `99.5`, and
the code reports an overflow. -/
theorem parseFrac_overflow_below_half :
    DigitText "99499999999999999999" ∧ (2 : Int) < len "99499999999999999999" ∧
    halfUp (textValue "99499999999999999999") 20 2 = 99 ∧
    parseFrac "99499999999999999999" 2 = (0, none, true) := by
  decide!

end Fsp

/-! ## More on `checkFsp` and the sentinel -/

namespace Fsp

/-- C11: for every integer input (sentinel, in range or out of range) the
precision returned by `checkFsp` lies in `[0,6]`; `checkFsp` is a total
function on the integers. -/
theorem checkFsp_range (fsp : Int) : 0 ≤ (checkFsp fsp).1 ∧ (checkFsp fsp).1 ≤ 6 := by
  unfold checkFsp UnspecifiedFsp MinFsp MaxFsp DefaultFsp
  split
  · simp
  · split
    · simp
    · simp only
      omega

/-- C16: for every text, `parseFrac(text, -1)` (the unspecified sentinel)
returns the same (value, error, overflow) triple as `parseFrac(text, 0)`. -/
theorem parseFrac_sentinel (s : String) : parseFrac s (-1) = parseFrac s 0 := by
  have h1 : checkFsp (-1) = (0, none) := rfl
  have h2 : checkFsp 0 = (0, none) := rfl
  unfold parseFrac
  rw [h1, h2]

/-- On a non-empty text and a valid precision that does not exceed the length,
`parseFrac` is the rounding path: a `ParseFloat` error is returned as is. -/
theorem parseFrac_round_error (s : String) (p : Int) (e : Err) (hs : s ≠ "") (h0 : 0 ≤ p)
    (h6 : p ≤ 6) (hlen : p ≤ len s) (hf : ParseFloat (fracText s) = Except.error e) :
    parseFrac s p = (0, some e, false) := by
  have hl : len s ≠ 0 := fun h => hs ((len_eq_zero_iff s).1 h)
  have hgt : ¬ (p > len s) := by omega
  unfold parseFrac
  rw [if_neg hl, checkFsp_of_valid p h0 h6]
  simp only
  rw [if_neg hgt, hf]

/-- On a non-empty text and a valid precision that does not exceed the length,
`parseFrac` is the rounding path: the parsed fraction goes to `roundFrac`. -/
theorem parseFrac_round_ok (s : String) (p : Int) (frac : F64) (hs : s ≠ "") (h0 : 0 ≤ p)
    (h6 : p ≤ 6) (hlen : p ≤ len s) (hf : ParseFloat (fracText s) = Except.ok frac) :
    parseFrac s p = roundFrac frac p := by
  have hl : len s ≠ 0 := fun h => hs ((len_eq_zero_iff s).1 h)
  have hgt : ¬ (p > len s) := by omega
  unfold parseFrac
  rw [if_neg hl, checkFsp_of_valid p h0 h6]
  simp only
  rw [if_neg hgt, hf]

/-- C17: for every text and valid precision `p` in `[0,6]` with
`len(text) >= p`, if `parseFrac` succeeds (no error, no overflow) then the
value is a non-negative multiple of `10^(6-p)` strictly below `10^6`. -/
theorem parseFrac_multiple (s : String) (p : Int) (h0 : 0 ≤ p) (h6 : p ≤ 6)
    (hlen : p ≤ len s)
    (herr : (parseFrac s p).2.1 = none) (hov : (parseFrac s p).2.2 = false) :
    0 ≤ (parseFrac s p).1 ∧ (10 : Int) ^ (6 - p).toNat ∣ (parseFrac s p).1 ∧
    (parseFrac s p).1 < 10 ^ 6 := by
  by_cases hs : s = ""
  · subst hs
    have : parseFrac "" p = (0, none, false) := by
      have h : len "" = 0 := by decide
      simp only [parseFrac, h, if_true]
    rw [this]
    exact ⟨le_refl _, dvd_zero _, by decide⟩
  · cases hf : ParseFloat (fracText s) with
    | error e =>
      rw [parseFrac_round_error s p e hs h0 h6 hlen hf] at herr
      cases herr
    | ok frac =>
      have hpath := parseFrac_round_ok s p frac hs h0 h6 hlen hf
      obtain ⟨u, hu, rfl⟩ := ParseFloat_ok_nonneg _ _ hf (fracText_head s)
      rcases roundFrac_fin u p hu h0 h6 with hovf | ⟨R, hR0, hR1, hres⟩
      · rw [hpath, hovf] at hov
        cases hov
      · rw [hpath, hres]
        have hpk : (0 : Int) < 10 ^ (6 - p).toNat := pow_pos (by decide) _
        have h2 : R * 10 ^ (6 - p).toNat < 10 ^ p.toNat * 10 ^ (6 - p).toNat :=
          Int.mul_lt_mul_of_pos_right hR1 hpk
        have h3 : (10 : Int) ^ p.toNat * 10 ^ (6 - p).toNat = 10 ^ 6 := by
          rw [← pow_add]
          congr 1
          omega
        refine ⟨Int.mul_nonneg hR0 (le_of_lt hpk), Dvd.intro_left R rfl, ?_⟩
        rw [h3] at h2
        exact h2

/-- Witness of `parseFrac_multiple` at `parseFrac("1236", 3) = (124000, nil, false)`. -/
theorem parseFrac_multiple_witness :
    parseFrac "1236" 3 = (124000, none, false) ∧
    0 ≤ (parseFrac "1236" 3).1 ∧ (10 : Int) ^ (6 - (3 : Int)).toNat ∣ (parseFrac "1236" 3).1 ∧
    (parseFrac "1236" 3).1 < 10 ^ 6 :=
  ⟨by decide!, parseFrac_multiple "1236" 3 (by decide) (by decide) (by decide)
    (by decide!) (by decide!)⟩

end Fsp

/-! ## `alignFrac` -/

namespace Fsp

theorem utf8_go_append (a b : List Char) :
    String.utf8ByteSize.go (a ++ b) = String.utf8ByteSize.go a + String.utf8ByteSize.go b := by
  induction a with
  | nil => simp [String.utf8ByteSize.go]
  | cons c a ih =>
    show String.utf8ByteSize.go (a ++ b) + c.utf8Size
      = String.utf8ByteSize.go a + c.utf8Size + String.utf8ByteSize.go b
    rw [ih]
    omega

theorem len_append (s t : String) : len (s ++ t) = len s + len t := by
  cases s with
  | mk a =>
    cases t with
    | mk b =>
      have h : (String.mk a ++ String.mk b) = String.mk (a ++ b) := rfl
      rw [h]
      unfold len String.utf8ByteSize
      simp only
      rw [utf8_go_append]
      push_cast
      rfl

theorem append_no_zeros (s : String) : s ++ String.mk (List.replicate 0 '0') = s := by
  cases s with
  | mk d =>
    show String.mk (d ++ []) = String.mk d
    rw [List.append_nil]

theorem len_zeros (k : Nat) : len (String.mk (List.replicate k '0')) = (k : Int) := by
  have hd : ∀ c ∈ (String.mk (List.replicate k '0')).data, IsDigit c := by
    intro c hc
    have : c = '0' := List.eq_of_mem_replicate hc
    subst this
    decide
  rw [len_of_digits _ hd]
  simp

theorem join_zeros (k : Nat) :
    String.join (List.replicate k "0") = String.mk (List.replicate k '0') := by
  rw [String.join_eq]
  congr 1
  induction k with
  | zero => rfl
  | succ k ih =>
    rw [List.replicate_succ, List.map_cons, List.flatten_cons, ih, List.replicate_succ]
    rfl

/-- The value of `alignFrac` as a closed form: `s` followed by
`max(0, n - len(s))` zero characters. -/
theorem alignFrac_eq (s : String) (n : Int) :
    alignFrac s n = some (s ++ String.mk (List.replicate (n - len s).toNat '0')) := by
  unfold alignFrac Repeat
  dsimp only
  by_cases h : len s < n
  · have hc : ¬ (n - len s < 0) := by omega
    rw [if_pos h, if_neg hc]
    simp only
    rw [join_zeros]
  · rw [if_neg h]
    have hz : (n - len s).toNat = 0 := by omega
    rw [hz, append_no_zeros]

/-- C13: for every string `s` and every integer `n`, `alignFrac(s, n)` is `s`
followed by `max(0, n - len(s))` characters `'0'`: its length is
`max(len(s), n)`, `s` is a prefix of it, and when `len(s) >= n` it is `s`
unchanged. -/
theorem alignFrac_spec (s : String) (n : Int) :
    alignFrac s n = some (s ++ String.mk (List.replicate (n - len s).toNat '0')) ∧
    (∀ r, alignFrac s n = some r → len r = max (len s) n ∧ HasPrefix r s = true) ∧
    (len s ≥ n → alignFrac s n = some s) := by
  refine ⟨alignFrac_eq s n, ?_, ?_⟩
  · intro r hr
    rw [alignFrac_eq] at hr
    injection hr with hr
    subst hr
    constructor
    · rw [len_append, len_zeros]
      have := len_nonneg s
      omega
    · unfold HasPrefix
      rw [String.data_append]
      simp
  · intro h
    rw [alignFrac_eq]
    have hz : (n - len s).toNat = 0 := by omega
    rw [hz, append_no_zeros]

/-- Witness of `alignFrac_spec`: `alignFrac("12", 5) = "12000"` and
`alignFrac("12345", 3) = "12345"`. -/
theorem alignFrac_spec_witness :
    alignFrac "12" 5 = some "12000" ∧ alignFrac "12345" 3 = some "12345" :=
  ⟨by rw [(alignFrac_spec "12" 5).1]; decide, (alignFrac_spec "12345" 3).2.2 (by decide)⟩

/-- C14: `alignFrac` never fails. For every string `s` and every integer `n`,
whenever `strings.Repeat` is called (that is, when `len(s) < n`) its count
`n - len(s)` is strictly positive and at most `n`, so the panic on a negative
count is unreachable, and a string is always returned. -/
theorem alignFrac_total (s : String) (n : Int) :
    (len s < n → 0 < n - len s ∧ n - len s ≤ n ∧ (Repeat "0" (n - len s)).isSome = true) ∧
    (alignFrac s n).isSome = true := by
  constructor
  · intro h
    have := len_nonneg s
    refine ⟨by omega, by omega, ?_⟩
    unfold Repeat
    have hc : ¬ (n - len s < 0) := by omega
    rw [if_neg hc]
    rfl
  · rw [alignFrac_eq]
    rfl

/-- Witness of `alignFrac_total`: padding `"12"` to 5 calls `strings.Repeat`
with count 3, and the empty string with a negative length is returned as is. -/
theorem alignFrac_total_witness :
    (0 < (5 : Int) - len "12" ∧ (5 : Int) - len "12" ≤ 5 ∧
      (Repeat "0" (5 - len "12")).isSome = true) ∧
    (alignFrac "" (-3)).isSome = true :=
  ⟨(alignFrac_total "12" 5).1 (by decide), (alignFrac_total "" (-3)).2⟩

end Fsp

/-! ## Error bounds and scaling of the rounding function -/

namespace Fsp

theorem pow_log2Fuel_le (fuel : Nat) : ∀ n : Nat, 0 < n → 2 ^ log2Fuel fuel n ≤ n := by
  induction fuel with
  | zero => intro n hn; simpa [log2Fuel] using hn
  | succ fuel ih =>
    intro n hn
    unfold log2Fuel
    split
    · simpa using hn
    · rename_i h2
      have h3 : 0 < n / 2 := Nat.div_pos (by omega) (by decide)
      have := ih (n / 2) h3
      rw [pow_succ]
      omega

theorem pow_log2_le (n : Nat) (hn : 0 < n) : 2 ^ log2 n ≤ n :=
  pow_log2Fuel_le n n hn

/-- The integer nearest to `n / d` is within half a unit of it. -/
theorem roundHalfEven_err (n d : Nat) (hd : 0 < d) :
    2 * (roundHalfEven n d * d) ≤ 2 * n + d ∧ 2 * n ≤ 2 * (roundHalfEven n d * d) + d := by
  have hn : d * (n / d) + n % d = n := Nat.div_add_mod n d
  have hr : n % d < d := Nat.mod_lt n hd
  have e1 : (n / d + 1) * d = d * (n / d) + d := by ring
  have e2 : n / d * d = d * (n / d) := by ring
  unfold roundHalfEven
  dsimp only
  split
  · rw [e2]; omega
  · split
    · rw [e1]; omega
    · split
      · rw [e2]; omega
      · rw [e1]; omega

/-- Scaling numerator and denominator by the same factor does not change the
nearest integer. -/
theorem roundHalfEven_scale (k n d : Nat) (hk : 0 < k) :
    roundHalfEven (k * n) (k * d) = roundHalfEven n d := by
  unfold roundHalfEven
  have h1 : k * n / (k * d) = n / d := Nat.mul_div_mul_left n d hk
  have h2 : k * n % (k * d) = k * (n % d) := Nat.mul_mod_mul_left k n d
  simp only [h1, h2]
  have c1 : (2 * (k * (n % d)) < k * d) ↔ (2 * (n % d) < d) := by
    rw [show 2 * (k * (n % d)) = k * (2 * (n % d)) by ring]
    exact Nat.mul_lt_mul_left hk
  have c2 : (k * d < 2 * (k * (n % d))) ↔ (d < 2 * (n % d)) := by
    rw [show 2 * (k * (n % d)) = k * (2 * (n % d)) by ring]
    exact Nat.mul_lt_mul_left hk
  simp only [c1, c2]

/-- Scaling numerator and denominator by the same factor does not change the
rounded binary64. -/
theorem roundUnits_scale (k n d : Nat) (hk : 0 < k) :
    roundUnits (k * n) (k * d) = roundUnits n d := by
  unfold roundUnits
  have h1 : k * n / (k * d) = n / d := Nat.mul_div_mul_left n d hk
  simp only [h1]
  split
  · exact roundHalfEven_scale k n d hk
  · rw [Nat.mul_assoc, roundHalfEven_scale k n _ hk]

/-- Rounding to binary64 has relative error at most `2^-53`, plus half a unit
in the subnormal range. -/
theorem roundUnits_err (n d : Nat) (hd : 0 < d) :
    2 ^ 53 * (roundUnits n d * d) ≤ (2 ^ 53 + 1) * n + 2 ^ 52 * d ∧
    2 ^ 53 * n ≤ 2 ^ 53 * (roundUnits n d * d) + n + 2 ^ 52 * d := by
  unfold roundUnits
  dsimp only
  split
  · obtain ⟨h1, h2⟩ := roundHalfEven_err n d hd
    constructor <;> omega
  · rename_i hfl
    have hfl : 2 ^ 53 ≤ n / d := by omega
    generalize hj : log2 (n / d) - 52 = j
    have hjle : 2 ^ 52 * 2 ^ j ≤ n / d := by
      by_cases hl : 52 ≤ log2 (n / d)
      · have : 52 + j = log2 (n / d) := by omega
        rw [← pow_add, this]
        exact pow_log2_le _ (by omega)
      · have : j = 0 := by omega
        subst this
        omega
    have hD : 0 < d * 2 ^ j := Nat.mul_pos hd (pow_pos (by decide) _)
    have hnD : 2 ^ 52 * (d * 2 ^ j) ≤ n := by
      have h3 : 2 ^ 52 * 2 ^ j * d ≤ n / d * d := Nat.mul_le_mul_right d hjle
      have h4 : n / d * d ≤ n := Nat.div_mul_le_self n d
      have e : 2 ^ 52 * (d * 2 ^ j) = 2 ^ 52 * 2 ^ j * d := by ring
      rw [e]
      exact le_trans h3 h4
    obtain ⟨h1, h2⟩ := roundHalfEven_err n (d * 2 ^ j) hD
    have e : roundHalfEven n (d * 2 ^ j) * 2 ^ j * d
        = roundHalfEven n (d * 2 ^ j) * (d * 2 ^ j) := by ring
    rw [e]
    generalize roundHalfEven n (d * 2 ^ j) * (d * 2 ^ j) = X at h1 h2 ⊢
    generalize d * 2 ^ j = D at h1 h2 hnD hD ⊢
    constructor <;> omega

end Fsp

/-! ## `ParseFloat` on a digit text -/

namespace Fsp

theorem one64_ge : 2 ^ 64 ≤ one64 := by
  rw [one64_eq]
  exact two_pow_le 64 1074 (by decide)

theorem limit64_ge : 2 ^ 64 ≤ limit64 := by
  rw [limit64_eq]
  exact two_pow_le 64 1024 (by decide)

theorem two_pow64_one64_le_huge64 : 2 ^ 64 * one64 ≤ huge64 := by
  rw [one64_eq, huge64_eq]
  exact two_pow_mul_le 64 1074 2098 (by decide)

/-- A non-negative ratio below `2^32` rounds to a finite binary64. -/
theorem F64.ofRatio_fin (n d : Nat) (hd : 0 < d) (hB : n < 2 ^ 32 * d) :
    F64.ofRatio (n : Int) d = F64.fin (roundUnits (n * one64) d) := by
  have h1 : ¬ (limit64 ≤ n / d) := by
    have h2 : n / d < 2 ^ 32 := by
      rw [Nat.div_lt_iff_lt_mul hd]
      exact hB
    have := limit64_ge
    omega
  have h3 : ¬ (huge64 ≤ roundUnits (n * one64) d) := by
    obtain ⟨e1, _⟩ := roundUnits_err (n * one64) d hd
    have hO := one64_ge
    have hH := two_pow64_one64_le_huge64
    have hn : n * one64 ≤ 2 ^ 32 * one64 * d := by
      have : n * one64 ≤ 2 ^ 32 * d * one64 := Nat.mul_le_mul_right _ (le_of_lt hB)
      calc n * one64 ≤ 2 ^ 32 * d * one64 := this
        _ = 2 ^ 32 * one64 * d := by ring
    intro hge
    have h4 : huge64 * d ≤ roundUnits (n * one64) d * d := Nat.mul_le_mul_right d hge
    have h5 : 2 ^ 64 * one64 * d ≤ huge64 * d := Nat.mul_le_mul_right d hH
    have h6 : 2 ^ 64 * one64 * d = 2 ^ 32 * (2 ^ 32 * one64 * d) := by ring
    have h7 : 2 ^ 52 * d ≤ 2 ^ 32 * one64 * d := by
      have : 2 ^ 52 ≤ 2 ^ 32 * one64 := by omega
      exact Nat.mul_le_mul_right d this
    have hdpos : 0 < 2 ^ 32 * one64 * d :=
      Nat.mul_pos (Nat.mul_pos (by decide) one64_pos) hd
    generalize roundUnits (n * one64) d * d = X at e1 h4
    generalize n * one64 = A at e1 hn
    generalize huge64 * d = Hd at h4 h5
    generalize 2 ^ 64 * one64 * d = Q at h5 h6
    generalize 2 ^ 32 * one64 * d = W at hn h6 h7 hdpos
    generalize 2 ^ 52 * d = V at e1 h7
    omega
  have hneg : ¬ ((n : Int) < 0) := by omega
  unfold F64.ofRatio
  rw [Int.natAbs_ofNat, if_neg h1]
  show (if huge64 ≤ roundUnits (n * one64) d then _ else _) = _
  rw [if_neg h3, if_neg hneg]

/-- The product of two non-negative finite values, when below `2^32`. -/
theorem F64.mul_fin (a b : Nat) (hB : a * b < 2 ^ 32 * (one64 * one64)) :
    F64.mul (F64.fin (a : Int)) (F64.fin (b : Int)) = F64.fin (roundUnits (a * b) one64) := by
  have hd : 0 < one64 * one64 := Nat.mul_pos one64_pos one64_pos
  show F64.ofRatio ((a : Int) * (b : Int)) (one64 * one64) = _
  have e : ((a : Int) * (b : Int)) = ((a * b : Nat) : Int) := by push_cast; rfl
  rw [e, F64.ofRatio_fin (a * b) (one64 * one64) hd hB]
  have e2 : a * b * one64 = one64 * (a * b) := by ring
  rw [e2, roundUnits_scale one64 (a * b) one64 one64_pos]

theorem hasPrefix_dot_of_digits (s : String) (h : ∀ c ∈ s.data, IsDigit c) :
    HasPrefix s "." = false ∧ HasPrefix s "0." = false := by
  have hdot : '.' ∉ s.data := by
    intro hm
    have := h '.' hm
    revert this
    decide
  constructor
  · rw [Bool.eq_false_iff]
    intro hp
    unfold HasPrefix at hp
    rw [List.isPrefixOf_iff_prefix] at hp
    exact hdot (hp.subset (by decide))
  · rw [Bool.eq_false_iff]
    intro hp
    unfold HasPrefix at hp
    rw [List.isPrefixOf_iff_prefix] at hp
    exact hdot (hp.subset (by decide))

theorem fracText_of_digits (s : String) (h : ∀ c ∈ s.data, IsDigit c) :
    (fracText s).data = '0' :: '.' :: s.data := by
  obtain ⟨h1, h2⟩ := hasPrefix_dot_of_digits s h
  unfold fracText
  rw [h1, h2]
  simp only [Bool.not_false, Bool.and_self, if_true]
  exact data_zeroDot_append s

theorem readMant_digits (cs : List Char) :
    ∀ (sd : Bool) (m f : Nat), (∀ c ∈ cs, IsDigit c) →
      readMant cs true sd m f = (sd || !cs.isEmpty, foldDigits cs m, f + cs.length, []) := by
  induction cs with
  | nil => intro sd m f _; simp [readMant, foldDigits]
  | cons c cs ih =>
    intro sd m f h
    have hc : IsDigit c := h c (List.mem_cons_self _ _)
    have hcs : ∀ x ∈ cs, IsDigit x := fun x hx => h x (List.mem_cons_of_mem _ hx)
    have h1 : c ≠ '_' := by
      rintro rfl
      revert hc
      decide
    have h2 : c ≠ '.' := by
      rintro rfl
      revert hc
      decide
    unfold readMant
    rw [if_neg h1, if_neg h2, digitVal_of_isDigit c hc]
    simp only [if_true]
    rw [ih true _ _ hcs]
    simp only [Bool.true_or, List.isEmpty_cons, Bool.not_false, Bool.or_true, List.length_cons,
      Prod.mk.injEq, true_and, and_true]
    constructor
    · rfl
    · omega

/-- On a digit text, `ParseFloat` is handed `0.` followed by the digits and
returns the finite binary64 nearest to `textValue / 10^length`. -/
theorem ParseFloat_of_digits (s : String) (hs : DigitText s) :
    ParseFloat (fracText s) =
      Except.ok (F64.fin (roundUnits (textValue s * one64) (10 ^ s.data.length))) := by
  obtain ⟨hne, hall⟩ := hs
  have hdata := fracText_of_digits s hall
  have hlen : 0 < s.data.length := by
    cases hd : s.data with
    | nil =>
      exfalso
      apply hne
      cases s
      simp only at hd
      rw [hd]
    | cons c cs => simp
  have hread : readFloat (fracText s).data = some (false, textValue s, -(s.data.length : Int)) := by
    rw [hdata, readFloat_zero_dot, readMant_digits s.data true 0 0 hall]
    simp only [Bool.true_or, Nat.zero_add]
    rfl
  have hund : (fracText s).data.contains '_' = false := by
    rw [hdata, Bool.eq_false_iff]
    intro hc
    rw [List.contains_iff_exists_mem_beq] at hc
    obtain ⟨x, hx, hbe⟩ := hc
    have hxe : x = '_' := by
      have := beq_iff_eq.1 hbe
      exact this.symm
    subst hxe
    rcases List.mem_cons.1 hx with h | hx
    · revert h; decide
    · rcases List.mem_cons.1 hx with h | hx
      · revert h; decide
      · have := hall _ hx
        revert this
        decide
  have hval := textValue_lt s hall
  have hfin := F64.ofRatio_fin (textValue s) (10 ^ s.data.length) (pow_pos (by decide) _)
    (by
      have : 10 ^ s.data.length ≤ 2 ^ 32 * 10 ^ s.data.length :=
        Nat.le_mul_of_pos_left _ (by decide)
      omega)
  have he : ¬ ((0 : Int) ≤ -(s.data.length : Int)) := by omega
  unfold ParseFloat
  rw [hread]
  simp only [hund, Bool.false_eq_true, false_and, if_false, he]
  have e : (-(-(s.data.length : Int))).toNat = s.data.length := by omega
  rw [e, hfin]

end Fsp

/-! ## The rounding step on a product that is close to an integer -/

namespace Fsp

theorem one64_half : one64 = 2 ^ 1073 * 2 := by
  have e : (1074 : Nat) = 1073 + 1 := rfl
  rw [one64_eq, e, pow_succ]

theorem F64.ofRatio_half : ∃ H : Nat, 2 * H = one64 ∧ F64.ofRatio 1 2 = F64.fin (H : Int) := by
  refine ⟨2 ^ 1073, ?_, ?_⟩
  · rw [one64_half, Nat.mul_comm]
  · have h := F64.ofRatio_fin 1 2 (by decide) (by decide)
    have e : 1 * one64 = 1 * 2 ^ 1073 * 2 := by
      rw [one64_half, Nat.one_mul, Nat.one_mul]
    rw [e, roundUnits_exact 1 1073 2 (by decide) (by decide), Nat.one_mul] at h
    exact h

/-- When the binary64 product `10^p * frac` is within a quarter of the integer
`N < 10^p`, the rounding step returns `N * 10^(6-p)`. -/
theorem roundFrac_of_digit (u : Int) (p : Int) (w N : Nat) (h0 : 0 ≤ p) (h6 : p ≤ 6)
    (hN : (N : Int) < 10 ^ p.toNat)
    (hdig : F64.mul (F64.powTen p) (F64.fin u) = F64.fin (w : Int))
    (hlo : 4 * (N * one64) ≤ 4 * w + one64) (hhi : 4 * w ≤ 4 * (N * one64) + one64) :
    roundFrac (F64.fin u) p = ((N : Int) * 10 ^ (6 - p).toNat, none, false) := by
  obtain ⟨H, hH, hhalf⟩ := F64.ofRatio_half
  have hOpos : (0 : Int) < (one64 : Int) := by exact_mod_cast one64_pos
  have hHO : 2 * (H : Int) = (one64 : Int) := by exact_mod_cast hH
  have hloZ : 4 * ((N : Int) * (one64 : Int)) ≤ 4 * (w : Int) + (one64 : Int) := by
    exact_mod_cast hlo
  have hhiZ : 4 * (w : Int) ≤ 4 * ((N : Int) * (one64 : Int)) + (one64 : Int) := by
    exact_mod_cast hhi
  have hw0 : (0 : Int) ≤ (w : Int) := Int.ofNat_nonneg _
  have hpow2 : F64.pow10 p = F64.fin ((10 : Int) ^ p.toNat * one64) := F64.pow10_exact p h0 h6
  have hpow3 : F64.pow10 (MaxFsp - p) = F64.fin ((10 : Int) ^ (6 - p).toNat * one64) := by
    unfold MaxFsp
    exact F64.pow10_exact (6 - p) (by omega) (by omega)
  -- the rounded value is `N`
  have hround : (if F64.ge (F64.modf (F64.fin (w : Int))).2 (F64.ofRatio 1 2) = true
      then F64.ceil (F64.fin (w : Int)) else F64.floor (F64.fin (w : Int)))
      = F64.fin ((N : Int) * one64) := by
    rw [hhalf]
    show (if decide ((H : Int) ≤ Int.tmod (w : Int) (one64 : Int)) = true
      then F64.fin (-((-(w : Int)) / (one64 : Int)) * one64)
      else F64.fin ((w : Int) / (one64 : Int) * one64)) = _
    rw [Int.tmod_eq_emod hw0 (le_of_lt hOpos)]
    by_cases hcase : (N : Int) * (one64 : Int) ≤ (w : Int)
    · have hdm := (Int.ediv_emod_unique (a := (w : Int)) (r := (w : Int) - N * one64)
        (q := (N : Int)) hOpos).2 ⟨by ring, by omega, by omega⟩
      rw [hdm.1, hdm.2]
      have : ¬ ((H : Int) ≤ (w : Int) - N * one64) := by omega
      simp only [decide_eq_true_eq, this, if_false]
    · have hdm := (Int.ediv_emod_unique (a := (w : Int))
        (r := (w : Int) - ((N : Int) - 1) * one64) (q := (N : Int) - 1) hOpos).2
        ⟨by ring, by
          have e : ((N : Int) - 1) * one64 = N * one64 - one64 := by ring
          rw [e]; omega, by
          have e : ((N : Int) - 1) * one64 = N * one64 - one64 := by ring
          rw [e]; omega⟩
      have hdm2 := (Int.ediv_emod_unique (a := -(w : Int))
        (r := (N : Int) * one64 - (w : Int)) (q := -(N : Int)) hOpos).2
        ⟨by ring, by omega, by omega⟩
      rw [hdm.2, hdm2.1]
      have e : ((N : Int) - 1) * one64 = N * one64 - one64 := by ring
      have : (H : Int) ≤ (w : Int) - ((N : Int) - 1) * one64 := by
        rw [e]; omega
      simp only [decide_eq_true_eq, this, if_true, neg_neg]
  have hge : F64.ge (F64.fin ((N : Int) * one64)) (F64.pow10 p) = false := by
    rw [hpow2]
    show decide ((10 : Int) ^ p.toNat * one64 ≤ (N : Int) * one64) = false
    rw [decide_eq_false_iff_not, not_le]
    exact Int.mul_lt_mul_of_pos_right hN hOpos
  have hprod : ((N : Int) * 10 ^ (6 - p).toNat).natAbs < 2 ^ 53 := by
    have hpk : (0 : Int) < 10 ^ (6 - p).toNat := pow_pos (by decide) _
    have h1 : (N : Int) * 10 ^ (6 - p).toNat < 10 ^ p.toNat * 10 ^ (6 - p).toNat :=
      Int.mul_lt_mul_of_pos_right hN hpk
    have h2 : (10 : Int) ^ p.toNat * 10 ^ (6 - p).toNat = 10 ^ 6 := by
      rw [← pow_add]
      congr 1
      omega
    have h3 : 0 ≤ (N : Int) * 10 ^ (6 - p).toNat :=
      Int.mul_nonneg (Int.ofNat_nonneg _) (le_of_lt hpk)
    rw [h2] at h1
    have h4 : (10 : Int) ^ 6 < 2 ^ 53 := by decide
    omega
  unfold roundFrac
  dsimp only
  rw [hdig, hround, hge]
  simp only [Bool.false_eq_true, if_false]
  rw [hpow3, F64.mul_exact _ _ hprod, F64.toInt_exact _ hprod]

end Fsp

/-! ## A digit text as long as the precision -/

namespace Fsp

/-- For `N < 10^L` and `L ≤ 6`, parsing `N / 10^L` and multiplying back by
`10^L` in binary64 stays within a quarter of `N`, so the rounding step returns
`N * 10^(6-L)`. -/
theorem roundFrac_full (N L : Nat) (hL : L ≤ 6) (hN : N < 10 ^ L) :
    roundFrac (F64.fin ((roundUnits (N * one64) (10 ^ L) : Nat) : Int)) (L : Int)
      = ((N : Int) * 10 ^ (6 - (L : Int)).toNat, none, false) := by
  have hD : 0 < 10 ^ L := pow_pos (by decide) _
  have hD6 : 10 ^ L ≤ 10 ^ 6 := Nat.pow_le_pow_right (by decide) hL
  have hO := one64_ge
  have hNO : N * one64 ≤ 10 ^ 6 * one64 := Nat.mul_le_mul_right _ (by omega)
  obtain ⟨eU1, eU2⟩ := roundUnits_err (N * one64) (10 ^ L) hD
  generalize hU : roundUnits (N * one64) (10 ^ L) = U at eU1 eU2 ⊢
  have hP : U * 10 ^ L < 2 ^ 32 * one64 := by
    generalize U * 10 ^ L = P at eU1 eU2
    generalize N * one64 = A at eU1 eU2 hNO
    generalize 10 ^ L = D at eU1 eU2 hD hD6
    omega
  have hB : 10 ^ L * one64 * U < 2 ^ 32 * (one64 * one64) := by
    have h1 : U * 10 ^ L * one64 < 2 ^ 32 * one64 * one64 :=
      Nat.mul_lt_mul_of_pos_right hP one64_pos
    calc 10 ^ L * one64 * U = U * 10 ^ L * one64 := by ring
      _ < 2 ^ 32 * one64 * one64 := h1
      _ = 2 ^ 32 * (one64 * one64) := by ring
  have hscale : roundUnits (10 ^ L * one64 * U) one64 = roundUnits (U * 10 ^ L) 1 := by
    have := roundUnits_scale one64 (U * 10 ^ L) 1 one64_pos
    rw [Nat.mul_one] at this
    rw [← this]
    congr 1
    ring
  have hdig : F64.mul (F64.powTen (L : Int)) (F64.fin ((U : Nat) : Int))
      = F64.fin ((roundUnits (U * 10 ^ L) 1 : Nat) : Int) := by
    have hpow : F64.powTen (L : Int) = F64.fin (((10 ^ L * one64 : Nat)) : Int) := by
      have := F64.pow10_exact (L : Int) (by omega) (by omega)
      unfold F64.powTen
      rw [this]
      congr 1
      push_cast
      rfl
    rw [hpow, F64.mul_fin _ _ hB, hscale]
  obtain ⟨eR1, eR2⟩ := roundUnits_err (U * 10 ^ L) 1 (by decide)
  have hNlt : (N : Int) < 10 ^ ((L : Int)).toNat := by
    have : ((L : Int)).toNat = L := by omega
    rw [this]
    exact_mod_cast hN
  apply roundFrac_of_digit _ (L : Int) (roundUnits (U * 10 ^ L) 1) N (by omega) (by omega)
    hNlt hdig
  · generalize roundUnits (U * 10 ^ L) 1 = R at eR1 eR2 ⊢
    generalize U * 10 ^ L = P at eU1 eU2 eR1 eR2
    generalize N * one64 = A at eU1 eU2 hNO ⊢
    generalize 10 ^ L = D at eU1 eU2 hD hD6
    omega
  · generalize roundUnits (U * 10 ^ L) 1 = R at eR1 eR2 ⊢
    generalize U * 10 ^ L = P at eU1 eU2 eR1 eR2
    generalize N * one64 = A at eU1 eU2 hNO ⊢
    generalize 10 ^ L = D at eU1 eU2 hD hD6
    omega

/-- C15: for every non-empty ASCII-digit text whose length equals a valid
precision `p` (`1 <= p <= 6`), `parseFrac(text, p)` takes the rounding path
and returns the integer value of the text times `10^(6-p)`, with no error and
no overflow. -/
theorem parseFrac_full_length (s : String) (p : Int) (hs : DigitText s) (h1 : 1 ≤ p)
    (h6 : p ≤ 6) (hlen : len s = p) :
    parseFrac s p = ((textValue s : Int) * 10 ^ (6 - p).toNat, none, false) := by
  have hL := len_of_digits s hs.2
  have hp : p = (s.data.length : Int) := by omega
  have hL6 : s.data.length ≤ 6 := by omega
  have hval := textValue_lt s hs.2
  rw [parseFrac_round_ok s p _ hs.1 (by omega) h6 (by omega) (ParseFloat_of_digits s hs)]
  rw [hp]
  exact roundFrac_full (textValue s) s.data.length hL6 hval

/-- Witness of `parseFrac_full_length`: `parseFrac("12", 2) = (120000, nil, false)`. -/
theorem parseFrac_full_length_witness :
    DigitText "12" ∧ len "12" = 2 ∧
    parseFrac "12" 2 = ((textValue "12" : Int) * 10 ^ (6 - (2 : Int)).toNat, none, false) ∧
    (textValue "12" : Int) * 10 ^ (6 - (2 : Int)).toNat = 120000 :=
  ⟨by decide, by decide,
    parseFrac_full_length "12" 2 (by decide) (by decide) (by decide) (by decide), by decide⟩

end Fsp

/-! ## Trailing zeros on the rounding path -/

namespace Fsp

theorem digitText_append_zero (s : String) (hs : DigitText s) : DigitText (s ++ "0") := by
  constructor
  · intro h
    have := congrArg String.data h
    rw [String.data_append] at this
    have h0 : "0".data = ['0'] := rfl
    rw [h0] at this
    have hl := congrArg List.length this
    simp at hl
  · intro c hc
    rw [String.data_append] at hc
    rcases List.mem_append.1 hc with h | h
    · exact hs.2 c h
    · have h0 : "0".data = ['0'] := rfl
      rw [h0] at h
      have : c = '0' := by simpa using h
      subst this
      decide

theorem textValue_append_zero (s : String) : textValue (s ++ "0") = textValue s * 10 := by
  unfold textValue foldDigits
  rw [String.data_append, List.foldl_append]
  rfl

theorem length_append_zero (s : String) : (s ++ "0").data.length = s.data.length + 1 := by
  rw [String.data_append, List.length_append]
  rfl

/-- C18: trailing zeros do not change the result on the rounding path: for
every non-empty ASCII-digit text `s` and valid precision `p` in `[0,6]` with
`len(s) >= p`, `parseFrac(s ++ "0", p)` returns the same triple as
`parseFrac(s, p)`. -/
theorem parseFrac_trailing_zero (s : String) (p : Int) (hs : DigitText s) (h0 : 0 ≤ p)
    (h6 : p ≤ 6) (hlen : p ≤ len s) :
    parseFrac (s ++ "0") p = parseFrac s p := by
  have hs2 := digitText_append_zero s hs
  have hlen2 : p ≤ len (s ++ "0") := by
    rw [len_append]
    have := len_nonneg "0"
    omega
  have hround : roundUnits (textValue (s ++ "0") * one64) (10 ^ (s ++ "0").data.length)
      = roundUnits (textValue s * one64) (10 ^ s.data.length) := by
    rw [textValue_append_zero, length_append_zero]
    have e1 : textValue s * 10 * one64 = 10 * (textValue s * one64) := by ring
    have e2 : 10 ^ (s.data.length + 1) = 10 * 10 ^ s.data.length := by ring
    rw [e1, e2, roundUnits_scale 10 _ _ (by decide)]
  rw [parseFrac_round_ok (s ++ "0") p _ hs2.1 h0 h6 hlen2 (ParseFloat_of_digits _ hs2),
    parseFrac_round_ok s p _ hs.1 h0 h6 hlen (ParseFloat_of_digits s hs), hround]

/-- Witness of `parseFrac_trailing_zero`: `parseFrac("12360", 3)` equals
`parseFrac("1236", 3)`, which is `(124000, nil, false)`. -/
theorem parseFrac_trailing_zero_witness :
    DigitText "1236" ∧ (3 : Int) ≤ len "1236" ∧
    parseFrac ("1236" ++ "0") 3 = parseFrac "1236" 3 ∧
    parseFrac "1236" 3 = (124000, none, false) :=
  ⟨by decide, by decide,
    parseFrac_trailing_zero "1236" 3 (by decide) (by decide) (by decide) (by decide),
    by decide!⟩

/-! ## The fill path against zero padding, and precision zero -/

/-- C12 at `s = "5"`, `p = 3`: the text is a digit text shorter than the
precision and `alignFrac("5", 3) = "500"`, yet `parseFrac("5", 3)` is
`(500, nil, false)` on the fill path while `parseFrac("500", 3)` is
`(500000, nil, false)` on the rounding path. At `p = 6` the two agree:
`parseFrac("5", 6) = parseFrac("500000", 6) = (500000, nil, false)`. -/
theorem parseFrac_padding_differs :
    DigitText "5" ∧ len "5" < 3 ∧ alignFrac "5" 3 = some "500" ∧
    parseFrac "5" 3 = (500, none, false) ∧ parseFrac "500" 3 = (500000, none, false) ∧
    parseFrac "5" 6 = (500000, none, false) ∧ parseFrac "500000" 6 = (500000, none, false) :=
  ⟨by decide, by decide, by rw [alignFrac_eq]; decide, by decide!, by decide!, by decide!,
    by decide!⟩

/-- At precision 0 a digit text gives value `0` and no error; only the overflow
flag varies. -/
theorem zero_precision_value (s : String) (hs : DigitText s) :
    parseFrac s 0 = (0, none, true) ∨ parseFrac s 0 = (0, none, false) := by
  rw [parseFrac_round_ok s 0 _ hs.1 (le_refl _) (by decide) (len_nonneg s)
    (ParseFloat_of_digits s hs)]
  rcases roundFrac_fin _ 0 (Int.ofNat_nonneg _) (le_refl _) (by decide) with h | ⟨R, h0, h1, h⟩
  · exact Or.inl h
  · right
    have hR : R = 0 := by
      have : (10 : Int) ^ (0 : Int).toNat = 1 := rfl
      rw [this] at h1
      omega
    rw [h, hR, Int.zero_mul]

/-- C19 at `parseFrac("499999999999999999999", 0)`: the first digit is `4`,
the fraction is below one half, yet its nearest binary64 is exactly `0.5` and
the code reports an overflow. -/
theorem parseFrac_zero_precision_below_half :
    DigitText "499999999999999999999" ∧
    "499999999999999999999".data.head? = some '4' ∧
    halfUp (textValue "499999999999999999999") 21 0 = 0 ∧
    parseFrac "499999999999999999999" 0 = (0, none, true) := by
  decide!

end Fsp
